import Mathlib

/-!
MessageTracker (network/message_tracker.go)

A shallow embedding of the bounded FIFO message tracker and the proofs of its
contract.  The Go receiver `*MessageTrackerImpl` becomes an explicit state that
every method takes and gives back; a runtime panic is an outcome of its own.

Modelling conventions:
* `*Message` arguments are `Option Message` (`none` is the nil pointer); stored
  pointers are never nil, because `Add` reads `message.ID` before it stores.
  Messages are immutable values: callers writing through a pointer after the
  call are outside the four methods.
* `[]*Message` is a `List Message`.  `Messages()` hands out the live slice; each
  result is taken as the sequence at the time of the call, and what a caller
  sees through a retained slice after later calls (backing-array sharing) is
  not modelled.
* `map[string]*Message` is a `Finmap`: a finite partial function with unique
  keys and no order.
* Go `int` is `Int`; the tracker does no arithmetic on it, only `==`.
-/

namespace network

/-- Modelled from the spec: the `Message` struct is declared outside the two
source files; the spec gives it an `id`, an `origin` and an opaque `payload`,
and the tests name the fields `ID`, `PeerID` (strings) and `Data` (`[]byte`). -/
structure Message where
  ID : String
  PeerID : String
  Data : List (Fin 256)
deriving DecidableEq

/-- The Go `error` values the tracker can return; `nil` is `none` of
`Option Error`. -/
inductive Error where
  | ErrMessageNotFound
deriving DecidableEq

/-- The struct `MessageTrackerImpl`: the queue, the hash table and the
capacity. -/
structure MessageTrackerImpl where
  messages : List Message
  messageMap : Finmap (fun _ : String => Message)
  capacity : Int

/-- The outcome of a method call: it returns `val` and leaves the tracker in
state `mt`, or it panics with the tracker in state `mt`. -/
inductive Result (α : Type) where
  | ret (val : α) (mt : MessageTrackerImpl)
  | panic (mt : MessageTrackerImpl)

/-- The tracker state a call leaves behind. -/
def Result.state {α : Type} : Result α → MessageTrackerImpl
  | .ret _ mt => mt
  | .panic mt => mt

/-- The returned value, when the call returned. -/
def Result.val? {α : Type} : Result α → Option α
  | .ret v _ => some v
  | .panic _ => none

/-- `NewMessageTracker(length)`: `make([]*Message, 0, length)` panics on a
negative capacity (`none`); otherwise the tracker starts empty.  Allocation
limits of `make` for very large capacities are not modelled. -/
def NewMessageTracker (length : Int) : Option MessageTrackerImpl :=
  if length < 0 then none
  else some { messages := [], messageMap := ∅, capacity := length }

/-- `len(mt.messageMap)`. -/
def mapLen (m : Finmap (fun _ : String => Message)) : Nat := m.keys.card

/-- `Add(message)`. -/
def Add (mt : MessageTrackerImpl) (message : Option Message) : Result (Option Error) :=
  match message with
  | none => .panic mt                      -- message.ID on a nil pointer
  | some message =>
    -- If message with the ID exists then ignore the request.
    if message.ID ∈ mt.messageMap then .ret none mt
    else
      -- If the buffer is full then remove the first (oldest) message.
      if (mt.messages.length : Int) = mt.capacity then
        match mt.messages with
        | [] => .panic mt                  -- mt.messages[0] out of range
        | oldest :: rest =>
          .ret none
            { mt with
              messages := rest ++ [message]
              messageMap := (mt.messageMap.erase oldest.ID).insert message.ID message }
      else
        .ret none
          { mt with
            messages := mt.messages ++ [message]
            messageMap := mt.messageMap.insert message.ID message }

/-- The `for i, v := range mt.messages` loop of `Delete`, entered at index `i`
with `rest` the elements from `i` on: at the first `v.ID == id` the queue
becomes `append(messages[:i], messages[i+1:]...)` and the loop breaks; when no
element matches, the queue is left as it is. -/
def Delete.loop (id : String) (messages : List Message) : List Message → Nat → List Message
  | [], _ => messages
  | v :: rest, i =>
    if v.ID = id then messages.take i ++ messages.drop (i + 1)
    else Delete.loop id messages rest (i + 1)

/-- `Delete(id)`. -/
def Delete (mt : MessageTrackerImpl) (id : String) : Result (Option Error) :=
  -- Return error if message does not exist.
  if id ∉ mt.messageMap then .ret (some .ErrMessageNotFound) mt
  else
    .ret none
      { mt with
        messageMap := mt.messageMap.erase id
        messages := Delete.loop id mt.messages mt.messages 0 }

/-- `Message(id)`: the pair `(message, err)`. -/
def MessageTrackerImpl.Message (mt : MessageTrackerImpl) (id : String) :
    Result (Option Message × Option Error) :=
  match mt.messageMap.lookup id with
  | none => .ret (none, some .ErrMessageNotFound) mt
  | some message => .ret (some message, none) mt

/-- `Messages()`: the queue itself. -/
def Messages (mt : MessageTrackerImpl) : Result (List Message) :=
  .ret mt.messages mt

/-- One call of the `MessageTracker` interface. -/
inductive Call where
  | Add (message : Option Message)
  | Delete (id : String)
  | Message (id : String)
  | Messages

/-- The tracker state after one call (a panicking call leaves the state it
panicked in, as a caller that recovers would see it). -/
def Call.exec (mt : MessageTrackerImpl) : Call → MessageTrackerImpl
  | .Add message => (network.Add mt message).state
  | .Delete id => (network.Delete mt id).state
  | .Message id => (mt.Message id).state
  | .Messages => (network.Messages mt).state

/-- The tracker state after a finite sequence of calls, first call first. -/
def run (mt : MessageTrackerImpl) (calls : List Call) : MessageTrackerImpl :=
  calls.foldl Call.exec mt

/-- The states reachable from `NewMessageTracker(c)` by Add, Delete, Message
and Messages calls. -/
def Reachable (c : Int) (mt : MessageTrackerImpl) : Prop :=
  ∃ mt0 calls, NewMessageTracker c = some mt0 ∧ run mt0 calls = mt

/-- The test helper `generateMessage(n)`. -/
def generateMessage (n : Nat) : Message :=
  { ID := "someID" ++ toString n, PeerID := "somePeerID" ++ toString n, Data := [0, 1, 1] }

/-- Adding a list of messages in order: the state after the last `Add`. -/
def addAll (mt : MessageTrackerImpl) (ms : List Message) : MessageTrackerImpl :=
  run mt (ms.map fun m => Call.Add (some m))

/-- The tracker every test starts from, `NewMessageTracker(5)`. -/
def fresh5 : MessageTrackerImpl := { messages := [], messageMap := ∅, capacity := 5 }

/-- The tracker of the duplicate tests after their first loop: `m0..m3` added
to `NewMessageTracker(5)`. -/
def tracker4 : MessageTrackerImpl := addAll fresh5 ((List.range 4).map generateMessage)

/-- The tracker of the first test after its loop: `m0..m4` added to
`NewMessageTracker(5)`, which fills it. -/
def tracker5 : MessageTrackerImpl := addAll fresh5 ((List.range 5).map generateMessage)

/-- The message of the test "with duplicates from other peers": the ID of `m3`
under the peer of `m0`. -/
def otherPeerMessage : Message := { generateMessage 3 with PeerID := "somePeerID0" }

/-- A mixed sequence of calls: six adds (one more than the capacity), a repeated
add, a nil add, two deletes (one of an evicted ID), a lookup and a listing. -/
def mixedCalls : List Call :=
  ((List.range 6).map fun n => Call.Add (some (generateMessage n))) ++
    [.Add (some otherPeerMessage), .Add none, .Delete "someID2", .Delete "someID0",
      .Message "someID4", .Messages]

/-- The tracker built with capacity 0, `NewMessageTracker(0)`. -/
def fresh0 : MessageTrackerImpl := { messages := [], messageMap := ∅, capacity := 0 }

/-- The error result a caller sees from one call: `none` when the call
panics, otherwise `some err` with `err` the returned error (`Messages()` has no
error result; it counts as nil). -/
def Call.errOf (mt : MessageTrackerImpl) : Call → Option (Option Error)
  | .Add message => (network.Add mt message).val?
  | .Delete id => (network.Delete mt id).val?
  | .Message id => (mt.Message id).val?.map Prod.snd
  | .Messages => (network.Messages mt).val?.map fun _ => none

/-- The error results of a sequence of calls, call by call. -/
def errs (mt : MessageTrackerImpl) : List Call → List (Option (Option Error))
  | [] => []
  | call :: calls => call.errOf mt :: errs (call.exec mt) calls

/-- Two calls that are identical except for the PeerID and Data of the message
passed to `Add`. -/
def Call.sameButPeerData : Call → Call → Bool
  | .Add (some m), .Add (some m2) => decide (m.ID = m2.ID)
  | .Add none, .Add none => true
  | .Delete id, .Delete id2 => decide (id = id2)
  | .Message id, .Message id2 => decide (id = id2)
  | .Messages, .Messages => true
  | _, _ => false

/-- Two tracker states that agree on everything but the PeerID and Data of the
stored messages: the same IDs in the same queue order, the same map keys, the
same capacity. -/
structure SameIDs (mt mt2 : MessageTrackerImpl) : Prop where
  queue : mt.messages.map (·.ID) = mt2.messages.map (·.ID)
  keys : ∀ id, id ∈ mt.messageMap ↔ id ∈ mt2.messageMap
  capacity : mt.capacity = mt2.capacity

/-- The calls of the test "not full, with duplicates": `m0..m3` then `m3`
again, followed by a delete, a lookup and a listing. -/
def duplicateCalls : List Call :=
  ((List.range 4).map fun n => Call.Add (some (generateMessage n))) ++
    [.Add (some (generateMessage 3)), .Delete "someID1", .Message "someID3", .Messages]

/-- The same calls as `duplicateCalls` with the duplicate coming from another
peer, as in the test "not full, with duplicates from other peers". -/
def otherPeerCalls : List Call :=
  ((List.range 4).map fun n => Call.Add (some (generateMessage n))) ++
    [.Add (some otherPeerMessage), .Delete "someID1", .Message "someID3", .Messages]

/-- A call made in state `mt` stores a message under `id`: it is an `Add` of a
(non-nil) message carrying `id`, made when `id` is not a key of the map, that
is, a non-duplicate Add. -/
def Call.stores (mt : MessageTrackerImpl) (id : String) : Call → Bool
  | .Add (some m) => decide (m.ID = id) && decide (id ∉ mt.messageMap)
  | _ => false

/-- Call number `i` (from 0) of the sequence `calls` run from `mt0` stores a
message under `id`. -/
def storesAt (mt0 : MessageTrackerImpl) (calls : List Call) (id : String) (i : Nat) : Bool :=
  match calls[i]? with
  | some call => call.stores (run mt0 (calls.take i)) id
  | none => false

/-- The number of the latest call of `calls` that stores a message under `id`:
the latest non-duplicate Add of that ID. -/
def storeTime (mt0 : MessageTrackerImpl) (calls : List Call) (id : String) : Option Nat :=
  ((List.range calls.length).filter (storesAt mt0 calls id)).getLast?

/-- The Add that stored the entry `a`: the latest non-duplicate Add of `a.ID`
is call number `i`, that call is `Add(a)`, and `a` is in the queue after every
later call (no Delete or eviction of `a` follows it). -/
def StoredBy (mt0 : MessageTrackerImpl) (calls : List Call) (a : Message) : Prop :=
  ∃ i, storeTime mt0 calls a.ID = some i ∧ calls[i]? = some (.Add (some a)) ∧
    ∀ k, i < k → k ≤ calls.length → a ∈ (run mt0 (calls.take k)).messages

/-- A call made in state `mt` removes the entry `a`: it is a `Delete` of the ID
of `a` when that ID is a key of the map (a Delete that succeeds), or an `Add`
that evicts `a`, that is a non-duplicate Add on a full queue whose oldest entry
`mt.messages[0]` is `a`. -/
def Call.removes (mt : MessageTrackerImpl) (a : network.Message) : Call → Bool
  | .Delete id => decide (id = a.ID) && decide (id ∈ mt.messageMap)
  | .Add (some m) =>
    decide (m.ID ∉ mt.messageMap) && decide ((mt.messages.length : Int) = mt.capacity) &&
      decide (mt.messages.head? = some a)
  | _ => false

/-- Call number `k` (from 0) of the sequence `calls` run from `mt0` removes the
entry `a` (deletes or evicts it). -/
def removesAt (mt0 : MessageTrackerImpl) (calls : List Call) (a : Message) (k : Nat) : Bool :=
  match calls[k]? with
  | some call => call.removes (run mt0 (calls.take k)) a
  | none => false

/-- The message `a` survives the sequence `calls`: the latest non-duplicate Add
of its ID is an `Add(a)`, call number `i`, and no later call deletes or evicts
`a`.  This is stated on the history of calls, not on the queue. -/
def Survives (mt0 : MessageTrackerImpl) (calls : List Call) (a : Message) : Prop :=
  ∃ i, storeTime mt0 calls a.ID = some i ∧ calls[i]? = some (.Add (some a)) ∧
    ∀ k, i < k → removesAt mt0 calls a k = false

/-- The Add that stored `a` happened before the Add that stored `b`. -/
def storedBefore (mt0 : MessageTrackerImpl) (calls : List Call) (a b : Message) : Prop :=
  ∃ i j, storeTime mt0 calls a.ID = some i ∧ storeTime mt0 calls b.ID = some j ∧ i < j

/-- The loop test `v.ID == id` as a predicate on queue entries. -/
def hasID (id : String) (v : Message) : Bool := decide (v.ID = id)

/-- The representation invariant of the tracker: the map is the lookup table
of the queue, the queue has no two entries with one ID, and the queue is no
longer than the (positive) capacity. -/
structure Inv (mt : MessageTrackerImpl) : Prop where
  lookup_eq : ∀ id, mt.messageMap.lookup id = mt.messages.find? (hasID id)
  nodup : (mt.messages.map (·.ID)).Nodup
  len_le : (mt.messages.length : Int) ≤ mt.capacity
  cap_pos : 1 ≤ mt.capacity

end network

namespace network

theorem find_hasID_eq_none {id : String} {l : List Message} :
    l.find? (hasID id) = none ↔ id ∉ l.map (·.ID) := by
  simp only [List.find?_eq_none, hasID, decide_eq_true_eq, List.mem_map, not_exists, not_and]

theorem Inv.mem_iff {mt : MessageTrackerImpl} (h : Inv mt) (id : String) :
    id ∈ mt.messageMap ↔ id ∈ mt.messages.map (·.ID) := by
  rw [← not_iff_not, ← Finmap.lookup_eq_none, h.lookup_eq, find_hasID_eq_none]

theorem Delete.loop_spec (id : String) (pre rest : List Message) :
    Delete.loop id (pre ++ rest) rest pre.length = pre ++ rest.eraseP (hasID id) := by
  induction rest generalizing pre with
  | nil => simp [Delete.loop]
  | cons v rest ih =>
    by_cases hv : v.ID = id
    · simp [Delete.loop, hv, hasID]
    · have := ih (pre ++ [v])
      simp only [List.append_assoc, List.singleton_append, List.length_append,
        List.length_singleton] at this
      simp [Delete.loop, hv, hasID, this]

theorem Delete.loop_eq_eraseP (id : String) (l : List Message) :
    Delete.loop id l l 0 = l.eraseP (hasID id) := by
  simpa using Delete.loop_spec id [] l

theorem eraseP_hasID_eq_filter {id : String} {l : List Message}
    (hnd : (l.map (·.ID)).Nodup) :
    l.eraseP (hasID id) = l.filter (fun v => !hasID id v) := by
  induction l with
  | nil => rfl
  | cons v l ih =>
    simp only [List.map_cons, List.nodup_cons] at hnd
    by_cases hv : v.ID = id
    · have hnot : ∀ w ∈ l, (!hasID id w) = true := by
        intro w hw
        have : w.ID ≠ id := by
          intro hw2
          exact hnd.1 (List.mem_map.2 ⟨w, hw, by rw [hw2, hv]⟩)
        simp [hasID, this]
      have hp : hasID id v = true := by simp [hasID, hv]
      rw [List.eraseP_cons_of_pos hp, List.filter_cons_of_neg (by simp [hp]),
        List.filter_eq_self.2 hnot]
    · simp [List.eraseP_cons, hasID, hv, ih hnd.2]

theorem Inv.new {c : Int} {mt0 : MessageTrackerImpl} (hc : 1 ≤ c)
    (h0 : NewMessageTracker c = some mt0) : Inv mt0 := by
  unfold NewMessageTracker at h0
  rw [if_neg (by omega)] at h0
  cases h0
  exact ⟨fun id => by simp [Finmap.lookup_empty], by simp, by simp; omega, hc⟩

theorem Inv.mapLen_eq {mt : MessageTrackerImpl} (h : Inv mt) :
    mapLen mt.messageMap = mt.messages.length := by
  have hk : mt.messageMap.keys = (mt.messages.map (·.ID)).toFinset := by
    ext id
    rw [Finmap.mem_keys, h.mem_iff, List.mem_toFinset]
  rw [mapLen, hk, List.toFinset_card_of_nodup h.nodup, List.length_map]

theorem Inv.add_full {mt : MessageTrackerImpl} (h : Inv mt) {m oldest : Message}
    {rest : List Message} (hm : m.ID ∉ mt.messageMap) (hq : mt.messages = oldest :: rest) :
    Inv { mt with
          messages := rest ++ [m]
          messageMap := (mt.messageMap.erase oldest.ID).insert m.ID m } := by
  have hnd := h.nodup
  have hlen := h.len_le
  have hm2 := (not_congr (h.mem_iff m.ID)).1 hm
  rw [hq] at hnd hlen hm2
  simp only [List.map_cons, List.nodup_cons, List.mem_cons, not_or] at hnd hm2
  refine ⟨fun id => ?_, ?_, ?_, h.cap_pos⟩
  · show Finmap.lookup id ((mt.messageMap.erase oldest.ID).insert m.ID m)
      = (rest ++ [m]).find? (hasID id)
    rw [List.find?_append]
    by_cases h1 : id = m.ID
    · subst h1
      rw [Finmap.lookup_insert, find_hasID_eq_none.2 hm2.2]
      simp [hasID]
    · have hm3 : [m].find? (hasID id) = none := by
        simp [hasID, Ne.symm h1]
      rw [Finmap.lookup_insert_of_ne _ h1, hm3, Option.or_none]
      by_cases h2 : id = oldest.ID
      · subst h2
        rw [Finmap.lookup_erase, find_hasID_eq_none.2 hnd.1]
      · rw [Finmap.lookup_erase_ne h2, h.lookup_eq, hq,
          List.find?_cons_of_neg _ (by simp [hasID, Ne.symm h2])]
  · show ((rest ++ [m]).map (·.ID)).Nodup
    rw [List.map_append, List.nodup_append]
    refine ⟨hnd.2, by simp, ?_⟩
    intro a ha hb
    simp only [List.map_cons, List.map_nil, List.mem_singleton] at hb
    subst hb
    exact hm2.2 ha
  · show ((rest ++ [m]).length : Int) ≤ mt.capacity
    simpa using hlen

theorem Inv.add_room {mt : MessageTrackerImpl} (h : Inv mt) {m : Message}
    (hm : m.ID ∉ mt.messageMap) (hne : (mt.messages.length : Int) ≠ mt.capacity) :
    Inv { mt with
          messages := mt.messages ++ [m]
          messageMap := mt.messageMap.insert m.ID m } := by
  have hm2 := (not_congr (h.mem_iff m.ID)).1 hm
  have hlen := h.len_le
  refine ⟨fun id => ?_, ?_, ?_, h.cap_pos⟩
  · show Finmap.lookup id (mt.messageMap.insert m.ID m)
      = (mt.messages ++ [m]).find? (hasID id)
    rw [List.find?_append]
    by_cases h1 : id = m.ID
    · subst h1
      rw [Finmap.lookup_insert, find_hasID_eq_none.2 hm2]
      simp [hasID]
    · have hm3 : [m].find? (hasID id) = none := by
        simp [hasID, Ne.symm h1]
      rw [Finmap.lookup_insert_of_ne _ h1, hm3, Option.or_none, h.lookup_eq]
  · show ((mt.messages ++ [m]).map (·.ID)).Nodup
    rw [List.map_append, List.nodup_append]
    refine ⟨h.nodup, by simp, ?_⟩
    intro a ha hb
    simp only [List.map_cons, List.map_nil, List.mem_singleton] at hb
    subst hb
    exact hm2 ha
  · show ((mt.messages ++ [m]).length : Int) ≤ mt.capacity
    simp only [List.length_append, List.length_singleton, Nat.cast_add, Nat.cast_one]
    omega

theorem Add_present {mt : MessageTrackerImpl} {m : Message} (hm : m.ID ∈ mt.messageMap) :
    Add mt (some m) = .ret none mt := by
  simp only [Add, if_pos hm]

theorem Add_full {mt : MessageTrackerImpl} {m oldest : Message} {rest : List Message}
    (hm : m.ID ∉ mt.messageMap) (hq : mt.messages = oldest :: rest)
    (hfull : (mt.messages.length : Int) = mt.capacity) :
    Add mt (some m) = .ret none
      { mt with
        messages := rest ++ [m]
        messageMap := (mt.messageMap.erase oldest.ID).insert m.ID m } := by
  simp only [Add, if_neg hm, if_pos hfull]
  rw [hq]

theorem Add_empty_full {mt : MessageTrackerImpl} {m : Message}
    (hm : m.ID ∉ mt.messageMap) (hq : mt.messages = [])
    (hfull : (mt.messages.length : Int) = mt.capacity) :
    Add mt (some m) = .panic mt := by
  simp only [Add, if_neg hm, if_pos hfull]
  rw [hq]

theorem Add_room {mt : MessageTrackerImpl} {m : Message}
    (hm : m.ID ∉ mt.messageMap) (hne : (mt.messages.length : Int) ≠ mt.capacity) :
    Add mt (some m) = .ret none
      { mt with
        messages := mt.messages ++ [m]
        messageMap := mt.messageMap.insert m.ID m } := by
  simp only [Add, if_neg hm, if_neg hne]

theorem Delete_absent {mt : MessageTrackerImpl} {id : String} (hid : id ∉ mt.messageMap) :
    Delete mt id = .ret (some .ErrMessageNotFound) mt := by
  simp only [Delete, if_pos hid]

theorem Delete_present {mt : MessageTrackerImpl} {id : String} (hid : id ∈ mt.messageMap) :
    Delete mt id = .ret none
      { mt with
        messageMap := mt.messageMap.erase id
        messages := mt.messages.eraseP (hasID id) } := by
  simp only [Delete, if_neg (not_not.2 hid), Delete.loop_eq_eraseP]

theorem Inv.delete {mt : MessageTrackerImpl} (h : Inv mt) (id : String) :
    Inv { mt with
          messageMap := mt.messageMap.erase id
          messages := mt.messages.eraseP (hasID id) } := by
  have hsub : (mt.messages.eraseP (hasID id)).Sublist mt.messages := List.eraseP_sublist _
  refine ⟨fun id2 => ?_, ?_, ?_, h.cap_pos⟩
  · show Finmap.lookup id2 (mt.messageMap.erase id)
      = (mt.messages.eraseP (hasID id)).find? (hasID id2)
    rw [eraseP_hasID_eq_filter h.nodup, List.find?_filter]
    by_cases h1 : id2 = id
    · subst h1
      rw [Finmap.lookup_erase]
      symm
      rw [List.find?_eq_none]
      intro v _
      cases hasID id2 v <;> simp
    · rw [Finmap.lookup_erase_ne h1, h.lookup_eq]
      congr 1
      funext v
      by_cases hv : v.ID = id2
      · subst hv
        simp [hasID, h1]
      · simp [hasID, hv]
  · exact h.nodup.sublist (hsub.map _)
  · have := hsub.length_le
    have := h.len_le
    show ((mt.messages.eraseP (hasID id)).length : Int) ≤ mt.capacity
    omega

theorem Inv.exec {mt : MessageTrackerImpl} (h : Inv mt) (call : Call) : Inv (call.exec mt) := by
  cases call with
  | Add message =>
    cases message with
    | none => exact h
    | some m =>
      show Inv (Add mt (some m)).state
      by_cases hm : m.ID ∈ mt.messageMap
      · rw [Add_present hm]; exact h
      · by_cases hfull : (mt.messages.length : Int) = mt.capacity
        · cases hq : mt.messages with
          | nil =>
            have := h.cap_pos
            rw [hq] at hfull
            simp only [List.length_nil, Nat.cast_zero] at hfull
            omega
          | cons oldest rest =>
            rw [Add_full hm hq hfull]
            exact h.add_full hm hq
        · rw [Add_room hm hfull]
          exact h.add_room hm hfull
  | Delete id =>
    show Inv (Delete mt id).state
    by_cases hid : id ∈ mt.messageMap
    · rw [Delete_present hid]; exact h.delete id
    · rw [Delete_absent hid]; exact h
  | Message id =>
    show Inv (mt.Message id).state
    unfold MessageTrackerImpl.Message
    cases mt.messageMap.lookup id <;> exact h
  | Messages => exact h

theorem Inv.run {mt : MessageTrackerImpl} (h : Inv mt) (calls : List Call) :
    Inv (run mt calls) := by
  induction calls generalizing mt with
  | nil => exact h
  | cons call calls ih => exact ih (h.exec call)

theorem capacity_exec (mt : MessageTrackerImpl) (call : Call) :
    (call.exec mt).capacity = mt.capacity := by
  cases call with
  | Add message =>
    cases message with
    | none => rfl
    | some m =>
      show (Add mt (some m)).state.capacity = mt.capacity
      by_cases hm : m.ID ∈ mt.messageMap
      · rw [Add_present hm]; rfl
      · by_cases hfull : (mt.messages.length : Int) = mt.capacity
        · cases hq : mt.messages with
          | nil => rw [Add_empty_full hm hq hfull]; rfl
          | cons oldest rest => rw [Add_full hm hq hfull]; rfl
        · rw [Add_room hm hfull]; rfl
  | Delete id =>
    show (Delete mt id).state.capacity = mt.capacity
    unfold Delete
    split_ifs <;> rfl
  | Message id =>
    show (mt.Message id).state.capacity = mt.capacity
    unfold MessageTrackerImpl.Message
    cases mt.messageMap.lookup id <;> rfl
  | Messages => rfl

theorem capacity_run (mt : MessageTrackerImpl) (calls : List Call) :
    (run mt calls).capacity = mt.capacity := by
  induction calls generalizing mt with
  | nil => rfl
  | cons call calls ih =>
    show (run (call.exec mt) calls).capacity = mt.capacity
    rw [ih, capacity_exec]

theorem Reachable.inv {c : Int} {mt : MessageTrackerImpl} (hc : 1 ≤ c) (h : Reachable c mt) :
    Inv mt := by
  obtain ⟨mt0, calls, h0, rfl⟩ := h
  exact (Inv.new hc h0).run calls

theorem Reachable.capacity {c : Int} {mt : MessageTrackerImpl} (h : Reachable c mt) :
    mt.capacity = c := by
  obtain ⟨mt0, calls, h0, rfl⟩ := h
  rw [capacity_run]
  unfold NewMessageTracker at h0
  split_ifs at h0
  cases h0
  rfl

theorem find_hasID_eq_some {id : String} {l : List Message} (hnd : (l.map (·.ID)).Nodup)
    (m : Message) : l.find? (hasID id) = some m ↔ m ∈ l ∧ m.ID = id := by
  induction l with
  | nil => simp
  | cons v l ih =>
    simp only [List.map_cons, List.nodup_cons] at hnd
    by_cases hv : v.ID = id
    · rw [List.find?_cons_of_pos _ (by simp [hasID, hv])]
      constructor
      · intro h
        cases h
        exact ⟨List.mem_cons_self _ _, hv⟩
      · rintro ⟨hm, hmid⟩
        rcases List.mem_cons.1 hm with rfl | hm
        · rfl
        · exact absurd (List.mem_map.2 ⟨m, hm, hmid.trans hv.symm⟩) hnd.1
    · rw [List.find?_cons_of_neg _ (by simp [hasID, hv]), ih hnd.2]
      constructor
      · rintro ⟨hm, hmid⟩
        exact ⟨List.mem_cons_of_mem _ hm, hmid⟩
      · rintro ⟨hm, hmid⟩
        rcases List.mem_cons.1 hm with rfl | hm
        · exact absurd hmid hv
        · exact ⟨hm, hmid⟩

/-- C1: for every capacity `c ≥ 1` and every finite sequence of Add, Delete,
Message and Messages calls applied to `NewMessageTracker(c)`, after every call
(after every prefix of the sequence) the queue and the map have the same number
of entries, that number is at most `c`, and `Messages()` returns at most `c`
messages. -/
theorem C1_size_eq_and_le_capacity (c : Int) (hc : 1 ≤ c) (mt0 : MessageTrackerImpl)
    (h0 : NewMessageTracker c = some mt0) (calls : List Call) (k : Nat) :
    (run mt0 (calls.take k)).messages.length = mapLen (run mt0 (calls.take k)).messageMap ∧
    ((run mt0 (calls.take k)).messages.length : Int) ≤ c ∧
    ∃ ms, (Messages (run mt0 (calls.take k))).val? = some ms ∧ (ms.length : Int) ≤ c := by
  have hinv : Inv (run mt0 (calls.take k)) := (Inv.new hc h0).run _
  have hcap : (run mt0 (calls.take k)).capacity = c :=
    Reachable.capacity ⟨mt0, _, h0, rfl⟩
  have hle := hinv.len_le
  rw [hcap] at hle
  exact ⟨hinv.mapLen_eq.symm, hle, _, rfl, hle⟩

theorem C1_size_eq_and_le_capacity_witness :
    (1 : Int) ≤ 5 ∧ NewMessageTracker 5 = some fresh5 ∧
    (run fresh5 (mixedCalls.take 9)).messages.length
      = mapLen (run fresh5 (mixedCalls.take 9)).messageMap ∧
    ((run fresh5 (mixedCalls.take 9)).messages.length : Int) ≤ 5 ∧
    ∃ ms, (Messages (run fresh5 (mixedCalls.take 9))).val? = some ms ∧ (ms.length : Int) ≤ 5 :=
  ⟨by decide, rfl, C1_size_eq_and_le_capacity 5 (by decide) fresh5 rfl mixedCalls 9⟩

/-- C2: in every state reachable from `NewMessageTracker(c)`, `c ≥ 1`, the queue
contains no two entries with the same ID. -/
theorem C2_queue_ids_nodup (c : Int) (hc : 1 ≤ c) (mt : MessageTrackerImpl)
    (h : Reachable c mt) : (mt.messages.map (·.ID)).Nodup :=
  (h.inv hc).nodup

theorem C2_queue_ids_nodup_witness :
    (1 : Int) ≤ 5 ∧ Reachable 5 (run fresh5 mixedCalls) ∧
    ((run fresh5 mixedCalls).messages.map (·.ID)).Nodup :=
  ⟨by decide, ⟨fresh5, mixedCalls, rfl, rfl⟩,
    C2_queue_ids_nodup 5 (by decide) _ ⟨fresh5, mixedCalls, rfl, rfl⟩⟩

/-- C3: in every state reachable from `NewMessageTracker(c)`, `c ≥ 1`, the IDs
of the queue entries are exactly the keys of the map, and a key maps to a
message exactly when that message is the queue entry carrying that ID. -/
theorem C3_map_keys_are_queue_ids (c : Int) (hc : 1 ≤ c) (mt : MessageTrackerImpl)
    (h : Reachable c mt) :
    (∀ id, id ∈ mt.messageMap ↔ id ∈ mt.messages.map (·.ID)) ∧
    mt.messageMap.keys = (mt.messages.map (·.ID)).toFinset ∧
    (∀ id m, mt.messageMap.lookup id = some m ↔ m ∈ mt.messages ∧ m.ID = id) := by
  have hinv := h.inv hc
  refine ⟨hinv.mem_iff, ?_, fun id m => ?_⟩
  · ext id
    rw [Finmap.mem_keys, hinv.mem_iff, List.mem_toFinset]
  · rw [hinv.lookup_eq, find_hasID_eq_some hinv.nodup]

theorem C3_map_keys_are_queue_ids_witness :
    (1 : Int) ≤ 5 ∧ Reachable 5 (run fresh5 mixedCalls) ∧
    (∀ id, id ∈ (run fresh5 mixedCalls).messageMap
      ↔ id ∈ (run fresh5 mixedCalls).messages.map (·.ID)) ∧
    (run fresh5 mixedCalls).messageMap.keys
      = ((run fresh5 mixedCalls).messages.map (·.ID)).toFinset ∧
    (∀ id m, (run fresh5 mixedCalls).messageMap.lookup id = some m
      ↔ m ∈ (run fresh5 mixedCalls).messages ∧ m.ID = id) :=
  ⟨by decide, ⟨fresh5, mixedCalls, rfl, rfl⟩,
    C3_map_keys_are_queue_ids 5 (by decide) _ ⟨fresh5, mixedCalls, rfl, rfl⟩⟩

/-- C4: for every tracker state and every message `m` whose ID is already a key
of the map, `Add(m)` returns success and leaves the tracker exactly as it was,
whatever the PeerID and Data of `m`: `Messages()` returns what it returned
before, and `Message(m.ID)` still returns the message the map stored, not
`m`. -/
theorem C4_add_present_is_noop (mt : MessageTrackerImpl) (m : Message)
    (hm : m.ID ∈ mt.messageMap) :
    Add mt (some m) = .ret none mt ∧
    Messages (Add mt (some m)).state = Messages mt ∧
    ∃ stored, mt.messageMap.lookup m.ID = some stored ∧
      (Add mt (some m)).state.Message m.ID = .ret (some stored, none) mt := by
  obtain ⟨stored, hs⟩ := Finmap.mem_iff.1 hm
  rw [Add_present hm]
  refine ⟨rfl, rfl, stored, hs, ?_⟩
  show mt.Message m.ID = _
  simp only [MessageTrackerImpl.Message, hs]

theorem C4_add_present_is_noop_witness :
    otherPeerMessage.ID ∈ tracker4.messageMap ∧
    Add tracker4 (some otherPeerMessage) = .ret none tracker4 ∧
    Messages (Add tracker4 (some otherPeerMessage)).state = Messages tracker4 ∧
    ∃ stored, tracker4.messageMap.lookup otherPeerMessage.ID = some stored ∧
      (Add tracker4 (some otherPeerMessage)).state.Message otherPeerMessage.ID
        = .ret (some stored, none) tracker4 :=
  ⟨by decide, C4_add_present_is_noop tracker4 otherPeerMessage (by decide)⟩

/-- C5: for every reachable tracker state with capacity `c ≥ 1` whose queue
holds exactly `c` entries, and every message `m` whose ID is not present,
`Add(m)` succeeds and evicts exactly the oldest entry: the queue was
`oldest :: rest`, `Messages()` afterwards returns `rest ++ [m]` (the previous
sequence with its first element dropped, followed by `m`), and the map lost the
key of `oldest` and gained `m.ID → m`. -/
theorem C5_add_full_evicts_oldest (c : Int) (hc : 1 ≤ c) (mt : MessageTrackerImpl)
    (h : Reachable c mt) (hfull : (mt.messages.length : Int) = c) (m : Message)
    (hm : m.ID ∉ mt.messageMap) :
    ∃ oldest rest mt2, mt.messages = oldest :: rest ∧
      Add mt (some m) = .ret none mt2 ∧
      Messages mt2 = .ret (mt.messages.drop 1 ++ [m]) mt2 ∧
      mt2.messages = rest ++ [m] ∧
      mt2.messageMap = (mt.messageMap.erase oldest.ID).insert m.ID m := by
  have hcap := h.capacity
  cases hq : mt.messages with
  | nil =>
    rw [hq] at hfull
    simp only [List.length_nil, Nat.cast_zero] at hfull
    omega
  | cons oldest rest =>
    exact ⟨oldest, rest, _, rfl, Add_full hm hq (hfull.trans hcap.symm), rfl, rfl, rfl⟩

theorem C5_add_full_evicts_oldest_witness :
    (1 : Int) ≤ 5 ∧ Reachable 5 tracker5 ∧ (tracker5.messages.length : Int) = 5 ∧
    (generateMessage 5).ID ∉ tracker5.messageMap ∧
    ∃ oldest rest mt2, tracker5.messages = oldest :: rest ∧
      Add tracker5 (some (generateMessage 5)) = .ret none mt2 ∧
      Messages mt2 = .ret (tracker5.messages.drop 1 ++ [generateMessage 5]) mt2 ∧
      mt2.messages = rest ++ [generateMessage 5] ∧
      mt2.messageMap
        = (tracker5.messageMap.erase oldest.ID).insert (generateMessage 5).ID
            (generateMessage 5) :=
  ⟨by decide, ⟨fresh5, _, rfl, rfl⟩, by decide, by decide,
    C5_add_full_evicts_oldest 5 (by decide) tracker5 ⟨fresh5, _, rfl, rfl⟩ (by decide)
      (generateMessage 5) (by decide)⟩

/-- C6: for every reachable tracker state (capacity `c ≥ 1`) whose queue holds
fewer entries than the capacity, and every message `m` whose ID is not present,
`Add(m)` succeeds and evicts nothing: `Messages()` afterwards returns the
previous sequence with `m` appended at the tail, and the map is the previous
map with the one binding `m.ID → m` added (every other key looks up as
before). -/
theorem C6_add_room_appends (c : Int) (hc : 1 ≤ c) (mt : MessageTrackerImpl)
    (h : Reachable c mt) (hroom : (mt.messages.length : Int) < c) (m : Message)
    (hm : m.ID ∉ mt.messageMap) :
    ∃ mt2, Add mt (some m) = .ret none mt2 ∧
      Messages mt2 = .ret (mt.messages ++ [m]) mt2 ∧
      mt2.messageMap = mt.messageMap.insert m.ID m ∧
      mt2.messageMap.lookup m.ID = some m ∧
      (∀ id, id ≠ m.ID → mt2.messageMap.lookup id = mt.messageMap.lookup id) ∧
      mapLen mt2.messageMap = mapLen mt.messageMap + 1 := by
  have hcap := h.capacity
  have hinv := h.inv hc
  have hne : (mt.messages.length : Int) ≠ mt.capacity := by omega
  refine ⟨_, Add_room hm hne, rfl, rfl, Finmap.lookup_insert _,
    fun id hid => Finmap.lookup_insert_of_ne _ hid, ?_⟩
  rw [(hinv.add_room hm hne).mapLen_eq, hinv.mapLen_eq]
  simp

theorem C6_add_room_appends_witness :
    (1 : Int) ≤ 5 ∧ Reachable 5 tracker4 ∧ (tracker4.messages.length : Int) < 5 ∧
    (generateMessage 4).ID ∉ tracker4.messageMap ∧
    ∃ mt2, Add tracker4 (some (generateMessage 4)) = .ret none mt2 ∧
      Messages mt2 = .ret (tracker4.messages ++ [generateMessage 4]) mt2 ∧
      mt2.messageMap = tracker4.messageMap.insert (generateMessage 4).ID (generateMessage 4) ∧
      mt2.messageMap.lookup (generateMessage 4).ID = some (generateMessage 4) ∧
      (∀ id, id ≠ (generateMessage 4).ID →
        mt2.messageMap.lookup id = tracker4.messageMap.lookup id) ∧
      mapLen mt2.messageMap = mapLen tracker4.messageMap + 1 :=
  ⟨by decide, ⟨fresh5, _, rfl, rfl⟩, by decide, by decide,
    C6_add_room_appends 5 (by decide) tracker4 ⟨fresh5, _, rfl, rfl⟩ (by decide)
      (generateMessage 4) (by decide)⟩

theorem addAll_append_singleton (mt : MessageTrackerImpl) (p : List Message) (m : Message) :
    addAll mt (p ++ [m]) = (Add (addAll mt p) (some m)).state := by
  simp [addAll, run, List.foldl_append, Call.exec]

theorem addAll_messages (k : Nat) (hk : 1 ≤ k) (mt0 : MessageTrackerImpl)
    (h0 : NewMessageTracker (k : Int) = some mt0) (ms : List Message)
    (hnd : (ms.map (·.ID)).Nodup) :
    (addAll mt0 ms).messages = ms.drop (ms.length - k) := by
  induction ms using List.reverseRecOn with
  | nil =>
    unfold NewMessageTracker at h0
    split_ifs at h0
    cases h0
    simp [addAll, run]
  | append_singleton p m ih =>
    rw [List.map_append, List.nodup_append] at hnd
    obtain ⟨hndp, -, hdisj⟩ := hnd
    have hmp : m.ID ∉ p.map (·.ID) := fun hmem => hdisj hmem (by simp)
    have ihp := ih hndp
    have hinv : Inv (addAll mt0 p) := (Inv.new (by omega) h0).run _
    have hcap : (addAll mt0 p).capacity = (k : Int) := Reachable.capacity ⟨mt0, _, h0, rfl⟩
    have hm : m.ID ∉ (addAll mt0 p).messageMap := by
      rw [hinv.mem_iff, ihp]
      exact fun hmem => hmp (((List.drop_sublist _ _).map _).subset hmem)
    have hlen : (addAll mt0 p).messages.length = p.length - (p.length - k) := by
      rw [ihp, List.length_drop]
    rw [addAll_append_singleton]
    by_cases hfull : ((addAll mt0 p).messages.length : Int) = (addAll mt0 p).capacity
    · have hkn : k ≤ p.length := by
        rw [hcap] at hfull
        omega
      cases hq : (addAll mt0 p).messages with
      | nil =>
        rw [hq] at hlen
        simp only [List.length_nil] at hlen
        omega
      | cons oldest rest =>
        rw [Add_full hm hq hfull]
        show rest ++ [m] = (p ++ [m]).drop ((p ++ [m]).length - k)
        have hrest : rest = p.drop (p.length - k + 1) := by
          have := congrArg List.tail (hq.symm.trans ihp)
          simpa [List.tail_drop] using this
        rw [hrest, List.length_append, List.length_singleton,
          List.drop_append_of_le_length (by omega)]
        congr 2
        omega
    · have hkn : p.length < k := by
        rw [hcap] at hfull
        omega
      rw [Add_room hm hfull]
      show (addAll mt0 p).messages ++ [m] = (p ++ [m]).drop ((p ++ [m]).length - k)
      rw [ihp, List.length_append, List.length_singleton]
      have e1 : p.length - k = 0 := by omega
      have e2 : p.length + 1 - k = 0 := by omega
      rw [e1, e2]
      rfl

/-- C7: for every capacity `c ≥ 1` and every list of `n` messages with pairwise
distinct IDs, adding them in order to `NewMessageTracker(c)` makes `Messages()`
return the last `min(n, c)` messages of the list, in the order they were
added. -/
theorem C7_add_distinct_keeps_last (c : Int) (hc : 1 ≤ c) (mt0 : MessageTrackerImpl)
    (h0 : NewMessageTracker c = some mt0) (ms : List Message)
    (hnd : (ms.map (·.ID)).Nodup) :
    Messages (addAll mt0 ms)
      = .ret (ms.drop (ms.length - min ms.length c.toNat)) (addAll mt0 ms) := by
  obtain ⟨k, rfl⟩ : ∃ k : Nat, c = (k : Int) := ⟨c.toNat, by omega⟩
  have hk : 1 ≤ k := by omega
  show Result.ret (addAll mt0 ms).messages _ = _
  rw [addAll_messages k hk mt0 h0 ms hnd, Int.toNat_ofNat]
  congr 2
  omega

theorem C7_add_distinct_keeps_last_witness :
    (1 : Int) ≤ 5 ∧ NewMessageTracker 5 = some fresh5 ∧
    (((List.range 10).map generateMessage).map (·.ID)).Nodup ∧
    Messages (addAll fresh5 ((List.range 10).map generateMessage))
      = .ret [generateMessage 5, generateMessage 6, generateMessage 7, generateMessage 8,
          generateMessage 9]
        (addAll fresh5 ((List.range 10).map generateMessage)) :=
  ⟨by decide, rfl, by decide,
    C7_add_distinct_keeps_last 5 (by decide) fresh5 rfl _ (by decide)⟩

/-- C8: for every reachable tracker state (capacity `c ≥ 1`) and every id that
is a key of the map, `Delete(id)` returns success and `Messages()` afterwards
returns the previous sequence with exactly the one entry carrying that id
removed: the queue was `pre ++ e :: post` with `e.ID = id`, it becomes
`pre ++ post` (no entry of which carries `id`), which is the previous sequence
filtered on `ID ≠ id`, and the length drops by one. -/
theorem C8_delete_present_removes_entry (c : Int) (hc : 1 ≤ c) (mt : MessageTrackerImpl)
    (h : Reachable c mt) (id : String) (hid : id ∈ mt.messageMap) :
    ∃ mt2 pre e post, Delete mt id = .ret none mt2 ∧
      mt.messages = pre ++ e :: post ∧ e.ID = id ∧
      (∀ v ∈ pre ++ post, v.ID ≠ id) ∧
      Messages mt2 = .ret (pre ++ post) mt2 ∧
      pre ++ post = mt.messages.filter (fun v => decide (v.ID ≠ id)) ∧
      mt2.messages.length + 1 = mt.messages.length := by
  have hinv := h.inv hc
  obtain ⟨e0, he0, hid0⟩ := List.mem_map.1 ((hinv.mem_iff id).1 hid)
  have hp0 : hasID id e0 = true := by simp [hasID, hid0]
  obtain ⟨e, pre, post, -, hpe, hsplit, herase⟩ := List.exists_of_eraseP he0 hp0
  have hfilter : mt.messages.eraseP (hasID id)
      = mt.messages.filter (fun v => decide (v.ID ≠ id)) := by
    rw [eraseP_hasID_eq_filter hinv.nodup]
    congr 1
    funext v
    simp [hasID]
  have hgone : ∀ v ∈ pre ++ post, v.ID ≠ id := by
    intro v hv
    rw [← herase, hfilter] at hv
    simpa using (List.mem_filter.1 hv).2
  refine ⟨_, pre, e, post, Delete_present hid, hsplit, by simpa [hasID] using hpe, hgone,
    ?_, ?_, ?_⟩
  · show Result.ret (mt.messages.eraseP (hasID id)) _ = _
    rw [herase]
  · rw [← herase, hfilter]
  · show (mt.messages.eraseP (hasID id)).length + 1 = mt.messages.length
    rw [herase, hsplit]
    simp only [List.length_append, List.length_cons]
    omega

theorem C8_delete_present_removes_entry_witness :
    (1 : Int) ≤ 5 ∧ Reachable 5 tracker5 ∧ "someID1" ∈ tracker5.messageMap ∧
    ∃ mt2 pre e post, Delete tracker5 "someID1" = .ret none mt2 ∧
      tracker5.messages = pre ++ e :: post ∧ e.ID = "someID1" ∧
      (∀ v ∈ pre ++ post, v.ID ≠ "someID1") ∧
      Messages mt2 = .ret (pre ++ post) mt2 ∧
      pre ++ post = tracker5.messages.filter (fun v => decide (v.ID ≠ "someID1")) ∧
      mt2.messages.length + 1 = tracker5.messages.length :=
  ⟨by decide, ⟨fresh5, _, rfl, rfl⟩, by decide,
    C8_delete_present_removes_entry 5 (by decide) tracker5 ⟨fresh5, _, rfl, rfl⟩ "someID1"
      (by decide)⟩

/-- C9: in every tracker state, `Delete(id)` returns `ErrMessageNotFound` if and
only if `id` is not a key of the map, and in that case the call leaves the
queue, the map and the capacity exactly as they were. -/
theorem C9_delete_not_found_iff_absent (mt : MessageTrackerImpl) (id : String) :
    ((Delete mt id).val? = some (some .ErrMessageNotFound) ↔ id ∉ mt.messageMap) ∧
    (id ∉ mt.messageMap → Delete mt id = .ret (some .ErrMessageNotFound) mt) := by
  refine ⟨⟨fun hret hid => ?_, fun hid => ?_⟩, fun hid => Delete_absent hid⟩
  · rw [Delete_present hid] at hret
    simp [Result.val?] at hret
  · rw [Delete_absent hid]
    rfl

theorem C9_delete_not_found_iff_absent_witness :
    "bleh" ∉ fresh5.messageMap ∧
    (Delete fresh5 "bleh").val? = some (some .ErrMessageNotFound) ∧
    Delete fresh5 "bleh" = .ret (some .ErrMessageNotFound) fresh5 :=
  ⟨by decide, (C9_delete_not_found_iff_absent fresh5 "bleh").1.2 (by decide),
    (C9_delete_not_found_iff_absent fresh5 "bleh").2 (by decide)⟩

/-- C10: for every reachable tracker state (capacity `c ≥ 1`) and every id, if
`Delete(id)` succeeds then in the state it leaves `Message(id)` fails with
`ErrMessageNotFound` (no message returned), a second `Delete(id)` fails with
`ErrMessageNotFound`, and no entry of `Messages()` carries that id. -/
theorem C10_after_delete_id_is_gone (c : Int) (hc : 1 ≤ c) (mt : MessageTrackerImpl)
    (h : Reachable c mt) (id : String) (hok : (Delete mt id).val? = some none) :
    (Delete mt id).state.Message id
      = .ret (none, some .ErrMessageNotFound) (Delete mt id).state ∧
    Delete (Delete mt id).state id
      = .ret (some .ErrMessageNotFound) (Delete mt id).state ∧
    ∃ ms, Messages (Delete mt id).state = .ret ms (Delete mt id).state ∧
      ∀ v ∈ ms, v.ID ≠ id := by
  have hinv := h.inv hc
  have hid : id ∈ mt.messageMap := by
    by_contra hid
    rw [Delete_absent hid] at hok
    simp [Result.val?] at hok
  have hinv2 : Inv (Delete mt id).state := by
    rw [Delete_present hid]
    exact hinv.delete id
  have hgone : id ∉ (Delete mt id).state.messageMap := by
    rw [Delete_present hid]
    exact Finmap.not_mem_erase_self
  refine ⟨?_, Delete_absent hgone, _, rfl, ?_⟩
  · simp only [MessageTrackerImpl.Message, Finmap.lookup_eq_none.2 hgone]
  · intro v hv hvid
    exact hgone ((hinv2.mem_iff id).2 (List.mem_map.2 ⟨v, hv, hvid⟩))

theorem C10_after_delete_id_is_gone_witness :
    (1 : Int) ≤ 5 ∧ Reachable 5 tracker5 ∧ (Delete tracker5 "someID2").val? = some none ∧
    (Delete tracker5 "someID2").state.Message "someID2"
      = .ret (none, some .ErrMessageNotFound) (Delete tracker5 "someID2").state ∧
    Delete (Delete tracker5 "someID2").state "someID2"
      = .ret (some .ErrMessageNotFound) (Delete tracker5 "someID2").state ∧
    ∃ ms, Messages (Delete tracker5 "someID2").state
        = .ret ms (Delete tracker5 "someID2").state ∧
      ∀ v ∈ ms, v.ID ≠ "someID2" :=
  ⟨by decide, ⟨fresh5, _, rfl, rfl⟩, by decide,
    C10_after_delete_id_is_gone 5 (by decide) tracker5 ⟨fresh5, _, rfl, rfl⟩ "someID2"
      (by decide)⟩

theorem run_append_singleton (mt : MessageTrackerImpl) (calls : List Call) (call : Call) :
    run mt (calls ++ [call]) = call.exec (run mt calls) := by
  simp [run, List.foldl_append]

theorem Inv.lookup_eq_some {mt : MessageTrackerImpl} (h : Inv mt) (id : String) (m : Message) :
    mt.messageMap.lookup id = some m ↔ m ∈ mt.messages ∧ m.ID = id := by
  rw [h.lookup_eq, find_hasID_eq_some h.nodup]

theorem Inv.nonempty_of_full {mt : MessageTrackerImpl} (h : Inv mt)
    (hfull : (mt.messages.length : Int) = mt.capacity) : mt.messages ≠ [] := by
  intro hq
  have := h.cap_pos
  rw [hq] at hfull
  simp only [List.length_nil, Nat.cast_zero] at hfull
  omega

theorem Add_absent {mt : MessageTrackerImpl} (h : Inv mt) {m : Message}
    (hm : m.ID ∉ mt.messageMap) :
    ∃ l mp, l.Sublist mt.messages ∧
      Add mt (some m) = .ret none
        { messages := l ++ [m], messageMap := Finmap.insert m.ID m mp,
          capacity := mt.capacity } := by
  by_cases hfull : (mt.messages.length : Int) = mt.capacity
  · cases hq : mt.messages with
    | nil => exact absurd hq (h.nonempty_of_full hfull)
    | cons oldest rest =>
      exact ⟨rest, mt.messageMap.erase oldest.ID, List.sublist_cons_self _ _,
        Add_full hm hq hfull⟩
  · exact ⟨mt.messages, mt.messageMap, List.Sublist.refl _, Add_room hm hfull⟩

/-- C11: in every reachable tracker state (capacity `c ≥ 1`) and for every id,
`Message(id)` returns `(m, nil)` exactly when `m` is the entry of `Messages()`
that carries that id, and when no entry of `Messages()` carries the id it
returns `(nil, ErrMessageNotFound)`; one of the two always happens, and the
tracker is left as it was. -/
theorem C11_message_finds_queue_entry (c : Int) (hc : 1 ≤ c) (mt : MessageTrackerImpl)
    (h : Reachable c mt) (id : String) :
    (∀ m, mt.Message id = .ret (some m, none) mt ↔ m ∈ mt.messages ∧ m.ID = id) ∧
    (mt.Message id = .ret (none, some .ErrMessageNotFound) mt ↔
      ∀ v ∈ mt.messages, v.ID ≠ id) ∧
    ((∃ m, mt.Message id = .ret (some m, none) mt) ∨
      mt.Message id = .ret (none, some .ErrMessageNotFound) mt) := by
  have hinv := h.inv hc
  have hnone : mt.messageMap.lookup id = none ↔ ∀ v ∈ mt.messages, v.ID ≠ id := by
    rw [hinv.lookup_eq, List.find?_eq_none]
    simp [hasID]
  refine ⟨fun m => ?_, ?_, ?_⟩
  · rw [← hinv.lookup_eq_some]
    unfold MessageTrackerImpl.Message
    cases hl : mt.messageMap.lookup id <;> simp
  · rw [← hnone]
    unfold MessageTrackerImpl.Message
    cases hl : mt.messageMap.lookup id <;> simp
  · unfold MessageTrackerImpl.Message
    cases hl : mt.messageMap.lookup id
    · exact Or.inr rfl
    · exact Or.inl ⟨_, rfl⟩

theorem C11_message_finds_queue_entry_witness :
    (1 : Int) ≤ 5 ∧ Reachable 5 tracker5 ∧
    (∀ m, tracker5.Message "someID3" = .ret (some m, none) tracker5
      ↔ m ∈ tracker5.messages ∧ m.ID = "someID3") ∧
    (tracker5.Message "someID3" = .ret (none, some .ErrMessageNotFound) tracker5 ↔
      ∀ v ∈ tracker5.messages, v.ID ≠ "someID3") ∧
    ((∃ m, tracker5.Message "someID3" = .ret (some m, none) tracker5) ∨
      tracker5.Message "someID3" = .ret (none, some .ErrMessageNotFound) tracker5) :=
  ⟨by decide, ⟨fresh5, _, rfl, rfl⟩,
    C11_message_finds_queue_entry 5 (by decide) tracker5 ⟨fresh5, _, rfl, rfl⟩ "someID3"⟩

/-- C12: for every reachable tracker state with capacity `c ≥ 1` and every
non-nil message `m`, `Add(m)` returns, with no error, and its eviction step
never indexes outside the queue: whenever the branch `len(queue) == capacity`
is taken (the ID is absent and the queue is full) the queue is non-empty. -/
theorem C12_add_returns_nil (c : Int) (hc : 1 ≤ c) (mt : MessageTrackerImpl)
    (h : Reachable c mt) (m : Message) :
    (∃ mt2, Add mt (some m) = .ret none mt2) ∧
    (m.ID ∉ mt.messageMap → (mt.messages.length : Int) = mt.capacity →
      ∃ oldest rest, mt.messages = oldest :: rest) := by
  have hinv := h.inv hc
  constructor
  · by_cases hm : m.ID ∈ mt.messageMap
    · exact ⟨mt, Add_present hm⟩
    · obtain ⟨l, mp, -, hadd⟩ := Add_absent hinv hm
      exact ⟨_, hadd⟩
  · intro _ hfull
    cases hq : mt.messages with
    | nil => exact absurd hq (hinv.nonempty_of_full hfull)
    | cons oldest rest => exact ⟨oldest, rest, rfl⟩

theorem C12_add_returns_nil_witness :
    (1 : Int) ≤ 5 ∧ Reachable 5 tracker5 ∧
    (∃ mt2, Add tracker5 (some (generateMessage 5)) = .ret none mt2) ∧
    ((generateMessage 5).ID ∉ tracker5.messageMap →
      (tracker5.messages.length : Int) = tracker5.capacity →
      ∃ oldest rest, tracker5.messages = oldest :: rest) :=
  ⟨by decide, ⟨fresh5, _, rfl, rfl⟩,
    C12_add_returns_nil 5 (by decide) tracker5 ⟨fresh5, _, rfl, rfl⟩ (generateMessage 5)⟩

theorem Message_of_lookup {mt : MessageTrackerImpl} {id : String} {m : Message}
    (hl : mt.messageMap.lookup id = some m) : mt.Message id = .ret (some m, none) mt := by
  simp only [MessageTrackerImpl.Message, hl]

theorem Message_absent {mt : MessageTrackerImpl} {id : String} (hid : id ∉ mt.messageMap) :
    mt.Message id = .ret (none, some .ErrMessageNotFound) mt := by
  simp only [MessageTrackerImpl.Message, Finmap.lookup_eq_none.2 hid]

/-- C13: for every reachable tracker state with capacity `c ≥ 1` and every
message `m`, `Add(m)` returns success and immediately afterwards
`Message(m.ID)` succeeds with a (non-nil) message whose ID is `m.ID`; that
message is `m` itself when `m.ID` was not a key of the map before the Add. -/
theorem C13_message_after_add (c : Int) (hc : 1 ≤ c) (mt : MessageTrackerImpl)
    (h : Reachable c mt) (m : Message) :
    ∃ mt2 stored, Add mt (some m) = .ret none mt2 ∧
      mt2.Message m.ID = .ret (some stored, none) mt2 ∧
      stored.ID = m.ID ∧
      (m.ID ∉ mt.messageMap → stored = m) := by
  have hinv := h.inv hc
  by_cases hm : m.ID ∈ mt.messageMap
  · obtain ⟨stored, hs⟩ := Finmap.mem_iff.1 hm
    exact ⟨mt, stored, Add_present hm, Message_of_lookup hs,
      ((hinv.lookup_eq_some _ _).1 hs).2, fun hno => absurd hm hno⟩
  · obtain ⟨l, mp, -, hadd⟩ := Add_absent hinv hm
    exact ⟨_, m, hadd, Message_of_lookup (Finmap.lookup_insert _), rfl, fun _ => rfl⟩

theorem C13_message_after_add_witness :
    (1 : Int) ≤ 5 ∧ Reachable 5 tracker4 ∧
    ∃ mt2 stored, Add tracker4 (some otherPeerMessage) = .ret none mt2 ∧
      mt2.Message otherPeerMessage.ID = .ret (some stored, none) mt2 ∧
      stored.ID = otherPeerMessage.ID ∧
      (otherPeerMessage.ID ∉ tracker4.messageMap → stored = otherPeerMessage) :=
  ⟨by decide, ⟨fresh5, _, rfl, rfl⟩,
    C13_message_after_add 5 (by decide) tracker4 ⟨fresh5, _, rfl, rfl⟩ otherPeerMessage⟩

/-- C14: for every reachable tracker state with capacity `c ≥ 1` in which an
Add evicts the oldest entry `e` (the queue is full, `e` is its first entry and
the added ID is absent), the Add returns success and immediately afterwards
`Message(e.ID)` and `Delete(e.ID)` both fail with `ErrMessageNotFound`, each
leaving the queue, the map and the capacity as the Add left them. -/
theorem C14_evicted_is_not_found (c : Int) (hc : 1 ≤ c) (mt : MessageTrackerImpl)
    (h : Reachable c mt) (m e : Message) (hm : m.ID ∉ mt.messageMap)
    (hfull : (mt.messages.length : Int) = c) (he : mt.messages.head? = some e) :
    ∃ mt2, Add mt (some m) = .ret none mt2 ∧
      e ∉ mt2.messages ∧
      mt2.Message e.ID = .ret (none, some .ErrMessageNotFound) mt2 ∧
      Delete mt2 e.ID = .ret (some .ErrMessageNotFound) mt2 := by
  have hinv := h.inv hc
  have hcap := h.capacity
  cases hq : mt.messages with
  | nil => rw [hq] at he; cases he
  | cons oldest rest =>
    rw [hq] at he
    cases he
    have hadd := Add_full hm hq (hfull.trans hcap.symm)
    have hinv2 := hinv.add_full hm hq
    have hein : e.ID ∈ mt.messageMap := by
      rw [hinv.mem_iff, hq]
      simp
    have hne : e.ID ≠ m.ID := fun heq => hm (heq ▸ hein)
    have hgone : e.ID ∉ (Finmap.insert m.ID m (mt.messageMap.erase e.ID)) := by
      rw [Finmap.mem_insert, Finmap.mem_erase]
      rintro (h1 | h1)
      · exact hne h1
      · exact h1.1 rfl
    refine ⟨_, hadd, ?_, Message_absent hgone, Delete_absent hgone⟩
    intro hmem
    exact hgone ((hinv2.mem_iff _).2 (List.mem_map.2 ⟨e, hmem, rfl⟩))

theorem C14_evicted_is_not_found_witness :
    (1 : Int) ≤ 5 ∧ Reachable 5 tracker5 ∧ (generateMessage 5).ID ∉ tracker5.messageMap ∧
    (tracker5.messages.length : Int) = 5 ∧
    tracker5.messages.head? = some (generateMessage 0) ∧
    ∃ mt2, Add tracker5 (some (generateMessage 5)) = .ret none mt2 ∧
      generateMessage 0 ∉ mt2.messages ∧
      mt2.Message (generateMessage 0).ID = .ret (none, some .ErrMessageNotFound) mt2 ∧
      Delete mt2 (generateMessage 0).ID = .ret (some .ErrMessageNotFound) mt2 :=
  ⟨by decide, ⟨fresh5, _, rfl, rfl⟩, by decide, by decide, by decide,
    C14_evicted_is_not_found 5 (by decide) tracker5 ⟨fresh5, _, rfl, rfl⟩ (generateMessage 5)
      (generateMessage 0) (by decide) (by decide) (by decide)⟩

/-- C16: for every tracker state and every id, `Message(id)` and `Messages()`
leave the queue, the map and the capacity exactly as they were; so `Messages()`
called twice in a row returns the same sequence, also with a `Message(id)` in
between. -/
theorem C16_reads_leave_state (mt : MessageTrackerImpl) (id : String) :
    (mt.Message id).state = mt ∧ (Messages mt).state = mt ∧
    Messages (Messages mt).state = Messages mt ∧
    Messages (mt.Message id).state = Messages mt := by
  have hmsg : (mt.Message id).state = mt := by
    unfold MessageTrackerImpl.Message
    cases mt.messageMap.lookup id <;> rfl
  exact ⟨hmsg, rfl, rfl, by rw [hmsg]⟩

theorem erase_insert_of_not_mem {mp : Finmap (fun _ : String => Message)} {m : Message}
    (hm : m.ID ∉ mp) : (mp.insert m.ID m).erase m.ID = mp := by
  apply Finmap.ext_lookup
  intro x
  by_cases hx : x = m.ID
  · subst hx
    rw [Finmap.lookup_erase, Finmap.lookup_eq_none.2 hm]
  · rw [Finmap.lookup_erase_ne hx, Finmap.lookup_insert_of_ne _ hx]

theorem eraseP_append_new {l : List Message} {m : Message}
    (hm : m.ID ∉ l.map (·.ID)) : (l ++ [m]).eraseP (hasID m.ID) = l := by
  rw [List.eraseP_append_right]
  · simp [hasID]
  · intro b hb hp
    exact hm (List.mem_map.2 ⟨b, hb, by simpa [hasID] using hp⟩)

/-- C18: Add followed by Delete is a round trip when nothing is evicted: for
every reachable tracker state (capacity `c ≥ 1`) whose queue holds fewer
entries than the capacity and every message `m` whose ID is not present,
`Add(m)` and then `Delete(m.ID)` both succeed and the tracker is back in the
state before the Add, so `Messages()` and the map are what they were. -/
theorem C18_add_then_delete_round_trip (c : Int) (hc : 1 ≤ c) (mt : MessageTrackerImpl)
    (h : Reachable c mt) (hroom : (mt.messages.length : Int) < c) (m : Message)
    (hm : m.ID ∉ mt.messageMap) :
    ∃ mt2, Add mt (some m) = .ret none mt2 ∧
      Delete mt2 m.ID = .ret none mt ∧
      Messages (Delete mt2 m.ID).state = Messages mt ∧
      (Delete mt2 m.ID).state.messageMap = mt.messageMap := by
  have hinv := h.inv hc
  have hcap := h.capacity
  have hne : (mt.messages.length : Int) ≠ mt.capacity := by omega
  have hin : m.ID ∈ (Finmap.insert m.ID m mt.messageMap) := Finmap.mem_insert.2 (Or.inl rfl)
  have hdel : Delete { mt with
        messages := mt.messages ++ [m]
        messageMap := mt.messageMap.insert m.ID m } m.ID = .ret none mt := by
    rw [Delete_present hin]
    show Result.ret none
      { messages := (mt.messages ++ [m]).eraseP (hasID m.ID),
        messageMap := (mt.messageMap.insert m.ID m).erase m.ID,
        capacity := mt.capacity } = _
    rw [erase_insert_of_not_mem hm, eraseP_append_new ((not_congr (hinv.mem_iff _)).1 hm)]
  refine ⟨_, Add_room hm hne, hdel, ?_, ?_⟩ <;> rw [hdel] <;> rfl

theorem C18_add_then_delete_round_trip_witness :
    (1 : Int) ≤ 5 ∧ Reachable 5 tracker4 ∧ (tracker4.messages.length : Int) < 5 ∧
    (generateMessage 4).ID ∉ tracker4.messageMap ∧
    ∃ mt2, Add tracker4 (some (generateMessage 4)) = .ret none mt2 ∧
      Delete mt2 (generateMessage 4).ID = .ret none tracker4 ∧
      Messages (Delete mt2 (generateMessage 4).ID).state = Messages tracker4 ∧
      (Delete mt2 (generateMessage 4).ID).state.messageMap = tracker4.messageMap :=
  ⟨by decide, ⟨fresh5, _, rfl, rfl⟩, by decide, by decide,
    C18_add_then_delete_round_trip 5 (by decide) tracker4 ⟨fresh5, _, rfl, rfl⟩ (by decide)
      (generateMessage 4) (by decide)⟩

/-- C19: deleting a stored message and adding it again moves it to the tail
without evicting anything: for every reachable tracker state with capacity
`c ≥ 1` and every message `m` in the queue, `Delete(m.ID)` and then `Add(m)`
both succeed, the queue `pre ++ m :: post` becomes `pre ++ post ++ [m]` (the
previous sequence with the entry of `m` removed, followed by `m`), and the
length of `Messages()` is unchanged. -/
theorem C19_delete_then_add_moves_to_tail (c : Int) (hc : 1 ≤ c) (mt : MessageTrackerImpl)
    (h : Reachable c mt) (m : Message) (hm : m ∈ mt.messages) :
    ∃ mt2 mt3 pre post, Delete mt m.ID = .ret none mt2 ∧
      Add mt2 (some m) = .ret none mt3 ∧
      mt.messages = pre ++ m :: post ∧
      Messages mt3 = .ret (pre ++ post ++ [m]) mt3 ∧
      mt3.messages.length = mt.messages.length := by
  have hinv := h.inv hc
  have hid : m.ID ∈ mt.messageMap := (hinv.mem_iff _).2 (List.mem_map.2 ⟨m, hm, rfl⟩)
  have hp : hasID m.ID m = true := by simp [hasID]
  obtain ⟨e, pre, post, -, hpe, hsplit, herase⟩ := List.exists_of_eraseP hm hp
  have hem : e = m := by
    have he : e ∈ mt.messages ∧ e.ID = m.ID := by
      refine ⟨?_, by simpa [hasID] using hpe⟩
      rw [hsplit]
      simp
    have h1 := (find_hasID_eq_some hinv.nodup e).2 he
    have h2 := (find_hasID_eq_some hinv.nodup m).2 ⟨hm, rfl⟩
    exact Option.some.inj (h1.symm.trans h2)
  subst hem
  have hlen : (mt.messages.eraseP (hasID e.ID)).length + 1 = mt.messages.length := by
    rw [herase, hsplit]
    simp only [List.length_append, List.length_cons]
    omega
  have hgone : e.ID ∉ mt.messageMap.erase e.ID := Finmap.not_mem_erase_self
  have hne : ((mt.messages.eraseP (hasID e.ID)).length : Int) ≠ mt.capacity := by
    have := hinv.len_le
    omega
  have hadd : Add { mt with
      messageMap := mt.messageMap.erase e.ID
      messages := mt.messages.eraseP (hasID e.ID) } (some e) = _ := Add_room hgone hne
  refine ⟨_, _, pre, post, Delete_present hid, hadd, hsplit, ?_, ?_⟩
  · show Result.ret (mt.messages.eraseP (hasID e.ID) ++ [e]) _ = _
    rw [herase]
  · show (mt.messages.eraseP (hasID e.ID) ++ [e]).length = mt.messages.length
    rw [List.length_append, List.length_singleton, hlen]

theorem C19_delete_then_add_moves_to_tail_witness :
    (1 : Int) ≤ 5 ∧ Reachable 5 tracker5 ∧ generateMessage 1 ∈ tracker5.messages ∧
    ∃ mt2 mt3 pre post, Delete tracker5 (generateMessage 1).ID = .ret none mt2 ∧
      Add mt2 (some (generateMessage 1)) = .ret none mt3 ∧
      tracker5.messages = pre ++ generateMessage 1 :: post ∧
      Messages mt3 = .ret (pre ++ post ++ [generateMessage 1]) mt3 ∧
      mt3.messages.length = tracker5.messages.length :=
  ⟨by decide, ⟨fresh5, _, rfl, rfl⟩, by decide,
    C19_delete_then_add_moves_to_tail 5 (by decide) tracker5 ⟨fresh5, _, rfl, rfl⟩
      (generateMessage 1) (by decide)⟩

theorem exec_fresh0 (call : Call) : call.exec fresh0 = fresh0 := by
  cases call with
  | Add message =>
    cases message with
    | none => rfl
    | some m =>
      show (Add fresh0 (some m)).state = fresh0
      rw [Add_empty_full (Finmap.not_mem_empty) rfl rfl]
      rfl
  | Delete id =>
    show (Delete fresh0 id).state = fresh0
    rw [Delete_absent (Finmap.not_mem_empty)]
    rfl
  | Message id =>
    show (fresh0.Message id).state = fresh0
    rw [Message_absent (Finmap.not_mem_empty)]
    rfl
  | Messages => rfl

theorem run_fresh0 (calls : List Call) : run fresh0 calls = fresh0 := by
  induction calls with
  | nil => rfl
  | cons call calls ih =>
    show run (call.exec fresh0) calls = fresh0
    rw [exec_fresh0, ih]

/-- C20: a tracker built with capacity 0 cannot accept any message.
`NewMessageTracker(0)` returns an empty tracker; on it the Add of any message
`m` passes the duplicate test (the ID is absent), takes the eviction branch
(`len(queue) == 0 == capacity`) with an empty queue, and panics on
`mt.messages[0]`: no Add (of a message or of nil) returns, the tracker is left
empty, and after any sequence of calls `Messages()` is still empty. -/
theorem C20_capacity_zero_add_panics :
    NewMessageTracker 0 = some fresh0 ∧ fresh0.messages = [] ∧
    (∀ m : Message, m.ID ∉ fresh0.messageMap ∧
      (fresh0.messages.length : Int) = fresh0.capacity ∧
      Add fresh0 (some m) = .panic fresh0) ∧
    (∀ message, (Add fresh0 message).val? = none ∧ (Add fresh0 message).state = fresh0) ∧
    (∀ calls, Messages (run fresh0 calls) = .ret [] fresh0 ∧
      mapLen (run fresh0 calls).messageMap = 0) := by
  have hadd : ∀ m : Message, Add fresh0 (some m) = .panic fresh0 := fun m =>
    Add_empty_full (Finmap.not_mem_empty) rfl rfl
  refine ⟨rfl, rfl, fun m => ⟨Finmap.not_mem_empty, rfl, hadd m⟩, fun message => ?_,
    fun calls => ?_⟩
  · cases message with
    | none => exact ⟨rfl, rfl⟩
    | some m => rw [hadd m]; exact ⟨rfl, rfl⟩
  · rw [run_fresh0]
    exact ⟨rfl, rfl⟩

theorem map_ID_eraseP (id : String) {l l2 : List Message}
    (h : l.map (·.ID) = l2.map (·.ID)) :
    (l.eraseP (hasID id)).map (·.ID) = (l2.eraseP (hasID id)).map (·.ID) := by
  induction l generalizing l2 with
  | nil =>
    cases l2 with
    | nil => rfl
    | cons b l2 => simp at h
  | cons a l ih =>
    cases l2 with
    | nil => simp at h
    | cons b l2 =>
      simp only [List.map_cons, List.cons.injEq] at h
      by_cases ha : a.ID = id
      · have hb : b.ID = id := h.1 ▸ ha
        rw [List.eraseP_cons_of_pos (by simp [hasID, ha]),
          List.eraseP_cons_of_pos (by simp [hasID, hb])]
        exact h.2
      · have hb : ¬ b.ID = id := h.1 ▸ ha
        rw [List.eraseP_cons_of_neg (by simp [hasID, ha]),
          List.eraseP_cons_of_neg (by simp [hasID, hb])]
        simp only [List.map_cons, List.cons.injEq]
        exact ⟨h.1, ih h.2⟩

theorem SameIDs.add_step {mt mt2 : MessageTrackerImpl} (h : SameIDs mt mt2) {m m2 : Message}
    (hid : m.ID = m2.ID) :
    (Add mt (some m)).val? = (Add mt2 (some m2)).val? ∧
    SameIDs (Add mt (some m)).state (Add mt2 (some m2)).state := by
  have hlen : mt.messages.length = mt2.messages.length := by
    simpa using congrArg List.length h.queue
  by_cases hm : m.ID ∈ mt.messageMap
  · have hm2 : m2.ID ∈ mt2.messageMap := hid ▸ (h.keys _).1 hm
    rw [Add_present hm, Add_present hm2]
    exact ⟨rfl, h⟩
  · have hm2 : m2.ID ∉ mt2.messageMap := fun hin => hm ((h.keys _).2 (hid ▸ hin))
    by_cases hfull : (mt.messages.length : Int) = mt.capacity
    · have hfull2 : (mt2.messages.length : Int) = mt2.capacity := by
        rw [← hlen, ← h.capacity]
        exact hfull
      cases hq : mt.messages with
      | nil =>
        have hq2 : mt2.messages = [] := by
          rw [hq] at hlen
          exact List.length_eq_zero.1 hlen.symm
        rw [Add_empty_full hm hq hfull, Add_empty_full hm2 hq2 hfull2]
        exact ⟨rfl, h⟩
      | cons oldest rest =>
        cases hq2 : mt2.messages with
        | nil =>
          rw [hq, hq2] at hlen
          simp at hlen
        | cons oldest2 rest2 =>
          have hqueue := h.queue
          rw [hq, hq2] at hqueue
          simp only [List.map_cons, List.cons.injEq] at hqueue
          rw [Add_full hm hq hfull, Add_full hm2 hq2 hfull2]
          refine ⟨rfl, ?_, fun id => ?_, h.capacity⟩
          · show (rest ++ [m]).map (·.ID) = (rest2 ++ [m2]).map (·.ID)
            simp only [List.map_append, List.map_cons, List.map_nil, hqueue.2, hid]
          · show id ∈ Finmap.insert m.ID m (mt.messageMap.erase oldest.ID)
              ↔ id ∈ Finmap.insert m2.ID m2 (mt2.messageMap.erase oldest2.ID)
            simp only [Finmap.mem_insert, Finmap.mem_erase, h.keys, hid, hqueue.1]
    · have hfull2 : (mt2.messages.length : Int) ≠ mt2.capacity := by
        rw [← hlen, ← h.capacity]
        exact hfull
      rw [Add_room hm hfull, Add_room hm2 hfull2]
      refine ⟨rfl, ?_, fun id => ?_, h.capacity⟩
      · show (mt.messages ++ [m]).map (·.ID) = (mt2.messages ++ [m2]).map (·.ID)
        simp only [List.map_append, List.map_cons, List.map_nil, h.queue, hid]
      · show id ∈ Finmap.insert m.ID m mt.messageMap
          ↔ id ∈ Finmap.insert m2.ID m2 mt2.messageMap
        simp only [Finmap.mem_insert, h.keys, hid]

theorem SameIDs.delete_step {mt mt2 : MessageTrackerImpl} (h : SameIDs mt mt2) (id : String) :
    (Delete mt id).val? = (Delete mt2 id).val? ∧
    SameIDs (Delete mt id).state (Delete mt2 id).state := by
  by_cases hid : id ∈ mt.messageMap
  · have hid2 : id ∈ mt2.messageMap := (h.keys _).1 hid
    rw [Delete_present hid, Delete_present hid2]
    refine ⟨rfl, map_ID_eraseP id h.queue, fun x => ?_, h.capacity⟩
    show x ∈ mt.messageMap.erase id ↔ x ∈ mt2.messageMap.erase id
    simp only [Finmap.mem_erase, h.keys]
  · have hid2 : id ∉ mt2.messageMap := fun hin => hid ((h.keys _).2 hin)
    rw [Delete_absent hid, Delete_absent hid2]
    exact ⟨rfl, h⟩

theorem SameIDs.message_step {mt mt2 : MessageTrackerImpl} (h : SameIDs mt mt2) (id : String) :
    (mt.Message id).val?.map Prod.snd = (mt2.Message id).val?.map Prod.snd ∧
    SameIDs (mt.Message id).state (mt2.Message id).state := by
  by_cases hid : id ∈ mt.messageMap
  · obtain ⟨v, hv⟩ := Finmap.mem_iff.1 hid
    obtain ⟨v2, hv2⟩ := Finmap.mem_iff.1 ((h.keys _).1 hid)
    rw [Message_of_lookup hv, Message_of_lookup hv2]
    exact ⟨rfl, h⟩
  · have hid2 : id ∉ mt2.messageMap := fun hin => hid ((h.keys _).2 hin)
    rw [Message_absent hid, Message_absent hid2]
    exact ⟨rfl, h⟩

theorem SameIDs.exec_step {mt mt2 : MessageTrackerImpl} (h : SameIDs mt mt2) {call call2 : Call}
    (hc : call.sameButPeerData call2 = true) :
    call.errOf mt = call2.errOf mt2 ∧ SameIDs (call.exec mt) (call2.exec mt2) := by
  cases call with
  | Add message =>
    cases call2 with
    | Add message2 =>
      cases message with
      | none =>
        cases message2 with
        | none => exact ⟨rfl, h⟩
        | some m2 => simp [Call.sameButPeerData] at hc
      | some m =>
        cases message2 with
        | none => simp [Call.sameButPeerData] at hc
        | some m2 =>
          have hid : m.ID = m2.ID := by simpa [Call.sameButPeerData] using hc
          exact h.add_step hid
    | Delete _ => simp [Call.sameButPeerData] at hc
    | Message _ => simp [Call.sameButPeerData] at hc
    | Messages => simp [Call.sameButPeerData] at hc
  | Delete id =>
    cases call2 with
    | Delete id2 =>
      have hid : id = id2 := by simpa [Call.sameButPeerData] using hc
      subst hid
      exact h.delete_step id
    | Add _ => simp [Call.sameButPeerData] at hc
    | Message _ => simp [Call.sameButPeerData] at hc
    | Messages => simp [Call.sameButPeerData] at hc
  | Message id =>
    cases call2 with
    | Message id2 =>
      have hid : id = id2 := by simpa [Call.sameButPeerData] using hc
      subst hid
      exact h.message_step id
    | Add _ => simp [Call.sameButPeerData] at hc
    | Delete _ => simp [Call.sameButPeerData] at hc
    | Messages => simp [Call.sameButPeerData] at hc
  | Messages =>
    cases call2 with
    | Messages => exact ⟨rfl, h⟩
    | Add _ => simp [Call.sameButPeerData] at hc
    | Delete _ => simp [Call.sameButPeerData] at hc
    | Message _ => simp [Call.sameButPeerData] at hc

theorem SameIDs.run_calls {mt mt2 : MessageTrackerImpl} (h : SameIDs mt mt2) {calls calls2 : List Call}
    (hrel : List.Forall₂ (fun a b => a.sameButPeerData b = true) calls calls2) :
    errs mt calls = errs mt2 calls2 ∧ SameIDs (run mt calls) (run mt2 calls2) := by
  induction hrel generalizing mt mt2 with
  | nil => exact ⟨rfl, h⟩
  | cons hc _ ih =>
    obtain ⟨herr, hst⟩ := h.exec_step hc
    obtain ⟨herrs, hrun⟩ := ih hst
    refine ⟨?_, hrun⟩
    simp only [errs, herr, herrs]

theorem SameIDs.refl_state (mt : MessageTrackerImpl) : SameIDs mt mt :=
  ⟨rfl, fun _ => Iff.rfl, rfl⟩

/-- C17: the tracker's behaviour depends on message IDs only: for any capacity
`c ≥ 1` and any two sequences of calls on `NewMessageTracker(c)` that are
identical except for the PeerID and Data of the messages passed to Add, every
call has the same error result in both runs (nil, `ErrMessageNotFound` or a
panic), and after every call (every prefix of the sequences) the IDs of the
messages that `Messages()` returns are the same sequence in both runs.  The
proof needs neither the bound on `c` nor a fresh start state: two runs from any
one state agree in the same way. -/
theorem C17_behaviour_depends_on_ids_only (c : Int) (_hc : 1 ≤ c) (mt0 : MessageTrackerImpl)
    (_h0 : NewMessageTracker c = some mt0) (calls calls2 : List Call)
    (hrel : List.Forall₂ (fun a b => a.sameButPeerData b = true) calls calls2) :
    errs mt0 calls = errs mt0 calls2 ∧
    ∀ k, ∃ ms ms2,
      Messages (run mt0 (calls.take k)) = .ret ms (run mt0 (calls.take k)) ∧
      Messages (run mt0 (calls2.take k)) = .ret ms2 (run mt0 (calls2.take k)) ∧
      ms.map (·.ID) = ms2.map (·.ID) := by
  refine ⟨((SameIDs.refl_state mt0).run_calls hrel).1, fun k => ⟨_, _, rfl, rfl, ?_⟩⟩
  exact ((SameIDs.refl_state mt0).run_calls (List.forall₂_take k hrel)).2.queue

theorem C17_behaviour_depends_on_ids_only_witness :
    (1 : Int) ≤ 5 ∧ NewMessageTracker 5 = some fresh5 ∧
    List.Forall₂ (fun a b => a.sameButPeerData b = true) duplicateCalls otherPeerCalls ∧
    errs fresh5 duplicateCalls = errs fresh5 otherPeerCalls ∧
    ∀ k, ∃ ms ms2,
      Messages (run fresh5 (duplicateCalls.take k))
        = .ret ms (run fresh5 (duplicateCalls.take k)) ∧
      Messages (run fresh5 (otherPeerCalls.take k))
        = .ret ms2 (run fresh5 (otherPeerCalls.take k)) ∧
      ms.map (·.ID) = ms2.map (·.ID) :=
  ⟨by decide, rfl, by decide,
    C17_behaviour_depends_on_ids_only 5 (by decide) fresh5 rfl duplicateCalls otherPeerCalls
      (by decide)⟩

theorem storesAt_append_of_lt (mt0 : MessageTrackerImpl) (calls : List Call) (call : Call)
    (id : String) {i : Nat} (hi : i < calls.length) :
    storesAt mt0 (calls ++ [call]) id i = storesAt mt0 calls id i := by
  unfold storesAt
  rw [List.getElem?_append_left hi, List.take_append_of_le_length (Nat.le_of_lt hi)]

theorem storesAt_append_length (mt0 : MessageTrackerImpl) (calls : List Call) (call : Call)
    (id : String) :
    storesAt mt0 (calls ++ [call]) id calls.length = call.stores (run mt0 calls) id := by
  unfold storesAt
  rw [List.getElem?_concat_length, List.take_append_of_le_length (Nat.le_refl _),
    List.take_of_length_le (Nat.le_refl _)]

theorem storeTime_append (mt0 : MessageTrackerImpl) (calls : List Call) (call : Call)
    (id : String) :
    storeTime mt0 (calls ++ [call]) id
      = if call.stores (run mt0 calls) id = true then some calls.length
        else storeTime mt0 calls id := by
  unfold storeTime
  have hold : (List.range calls.length).filter (storesAt mt0 (calls ++ [call]) id)
      = (List.range calls.length).filter (storesAt mt0 calls id) :=
    List.filter_congr fun i hi => storesAt_append_of_lt mt0 calls call id (List.mem_range.1 hi)
  rw [List.length_append, List.length_singleton, List.range_succ, List.filter_append, hold]
  by_cases hs : call.stores (run mt0 calls) id = true
  · rw [if_pos hs, List.filter_cons_of_pos (by rw [storesAt_append_length]; exact hs),
      List.filter_nil, List.getLast?_concat]
  · rw [if_neg hs, List.filter_cons_of_neg (by rw [storesAt_append_length]; exact hs),
      List.filter_nil, List.append_nil]

theorem storeTime_lt {mt0 : MessageTrackerImpl} {calls : List Call} {id : String} {i : Nat}
    (h : storeTime mt0 calls id = some i) : i < calls.length := by
  have hmem := List.mem_of_getLast?_eq_some h
  exact List.mem_range.1 (List.mem_filter.1 hmem).1

theorem stores_false_of_mem {mt : MessageTrackerImpl} (h : Inv mt) {m a : Message}
    (hm : m.ID ∉ mt.messageMap) (ha : a ∈ mt.messages) :
    (Call.Add (some m)).stores mt a.ID = false := by
  have hain : a.ID ∈ mt.messageMap := (h.mem_iff _).2 (List.mem_map.2 ⟨a, ha, rfl⟩)
  have hne : m.ID ≠ a.ID := fun heq => hm (heq ▸ hain)
  simp [Call.stores, hne]

theorem exec_shape {mt : MessageTrackerImpl} (h : Inv mt) (call : Call) :
    ((∀ id, call.stores mt id = false) ∧ (call.exec mt).messages.Sublist mt.messages) ∨
    (∃ m l, call = .Add (some m) ∧ m.ID ∉ mt.messageMap ∧ l.Sublist mt.messages ∧
      (call.exec mt).messages = l ++ [m]) := by
  cases call with
  | Add message =>
    cases message with
    | none => exact Or.inl ⟨fun _ => rfl, List.Sublist.refl _⟩
    | some m =>
      by_cases hm : m.ID ∈ mt.messageMap
      · left
        refine ⟨fun id => ?_, ?_⟩
        · by_cases hid : m.ID = id
          · subst hid
            simp [Call.stores, hm]
          · simp [Call.stores, hid]
        · show (Add mt (some m)).state.messages.Sublist mt.messages
          rw [Add_present hm]
          exact List.Sublist.refl _
      · right
        obtain ⟨l, mp, hl, hadd⟩ := Add_absent h hm
        refine ⟨m, l, rfl, hm, hl, ?_⟩
        show (Add mt (some m)).state.messages = l ++ [m]
        rw [hadd]
        rfl
  | Delete id =>
    left
    refine ⟨fun _ => rfl, ?_⟩
    show (Delete mt id).state.messages.Sublist mt.messages
    by_cases hid : id ∈ mt.messageMap
    · rw [Delete_present hid]
      exact List.eraseP_sublist _
    · rw [Delete_absent hid]
      exact List.Sublist.refl _
  | Message id =>
    left
    refine ⟨fun _ => rfl, ?_⟩
    show (mt.Message id).state.messages.Sublist mt.messages
    unfold MessageTrackerImpl.Message
    cases mt.messageMap.lookup id <;> exact List.Sublist.refl _
  | Messages => exact Or.inl ⟨fun _ => rfl, List.Sublist.refl _⟩

theorem StoredBy.append_call {mt0 : MessageTrackerImpl} {calls : List Call} {a : Message}
    (h : StoredBy mt0 calls a) (call : Call)
    (hs : call.stores (run mt0 calls) a.ID = false)
    (hin : a ∈ (call.exec (run mt0 calls)).messages) :
    StoredBy mt0 (calls ++ [call]) a := by
  obtain ⟨i, hi, hget, hstay⟩ := h
  have hlt := storeTime_lt hi
  refine ⟨i, ?_, ?_, ?_⟩
  · rw [storeTime_append, if_neg (by simp [hs]), hi]
  · rw [List.getElem?_append_left hlt, hget]
  · intro k hik hk
    rw [List.length_append, List.length_singleton] at hk
    by_cases hkn : k ≤ calls.length
    · rw [List.take_append_of_le_length hkn]
      exact hstay k hik hkn
    · rw [List.take_of_length_le (by rw [List.length_append, List.length_singleton]; omega),
        run_append_singleton]
      exact hin

theorem StoredBy.by_new_add {mt0 : MessageTrackerImpl} {calls : List Call} {m : Message}
    (hs : (Call.Add (some m)).stores (run mt0 calls) m.ID = true)
    (hin : m ∈ ((Call.Add (some m)).exec (run mt0 calls)).messages) :
    StoredBy mt0 (calls ++ [.Add (some m)]) m := by
  refine ⟨calls.length, ?_, List.getElem?_concat_length _ _, ?_⟩
  · rw [storeTime_append, if_pos hs]
  · intro k hik _
    rw [List.take_of_length_le (by rw [List.length_append, List.length_singleton]; omega),
      run_append_singleton]
    exact hin

theorem stored_order (mt0 : MessageTrackerImpl) (hinv : Inv mt0) (hempty : mt0.messages = [])
    (calls : List Call) :
    (∀ a ∈ (run mt0 calls).messages, StoredBy mt0 calls a) ∧
    (run mt0 calls).messages.Pairwise (storedBefore mt0 calls) := by
  induction calls using List.reverseRecOn with
  | nil =>
    have hrun : run mt0 [] = mt0 := rfl
    rw [hrun, hempty]
    exact ⟨fun a ha => absurd ha (List.not_mem_nil a), List.Pairwise.nil⟩
  | append_singleton calls call ih =>
    obtain ⟨ih1, ih2⟩ := ih
    have hS := hinv.run calls
    rw [run_append_singleton]
    rcases exec_shape hS call with ⟨hno, hsub⟩ | ⟨m, l, rfl, hm, hl, hq⟩
    · refine ⟨fun a ha => (ih1 a (hsub.subset ha)).append_call call (hno _) ha, ?_⟩
      refine (ih2.sublist hsub).imp ?_
      rintro a b ⟨i, j, hi, hj, hij⟩
      exact ⟨i, j, by rw [storeTime_append, if_neg (by simp [hno]), hi],
        by rw [storeTime_append, if_neg (by simp [hno]), hj], hij⟩
    · have hstore : (Call.Add (some m)).stores (run mt0 calls) m.ID = true := by
        simp [Call.stores, hm]
      have hold : ∀ a ∈ l, StoredBy mt0 (calls ++ [.Add (some m)]) a := fun a ha =>
        (ih1 a (hl.subset ha)).append_call _ (stores_false_of_mem hS hm (hl.subset ha))
          (by rw [hq]; exact List.mem_append_left _ ha)
      have hnew : StoredBy mt0 (calls ++ [.Add (some m)]) m :=
        StoredBy.by_new_add hstore (by rw [hq]; simp)
      rw [hq]
      refine ⟨fun a ha => ?_, ?_⟩
      · rcases List.mem_append.1 ha with ha | ha
        · exact hold a ha
        · rw [List.mem_singleton.1 ha]
          exact hnew
      · rw [List.pairwise_append]
        refine ⟨?_, List.pairwise_singleton _ _, ?_⟩
        · refine (ih2.sublist hl).imp_of_mem ?_
          rintro a b ha hb ⟨i, j, hi, hj, hij⟩
          have hsa := stores_false_of_mem hS hm (hl.subset ha)
          have hsb := stores_false_of_mem hS hm (hl.subset hb)
          exact ⟨i, j, by rw [storeTime_append, if_neg (by simp [hsa]), hi],
            by rw [storeTime_append, if_neg (by simp [hsb]), hj], hij⟩
        · intro a ha b hb
          rw [List.mem_singleton.1 hb]
          obtain ⟨i, hi, -, -⟩ := ih1 a (hl.subset ha)
          have hsa := stores_false_of_mem hS hm (hl.subset ha)
          exact ⟨i, calls.length, by rw [storeTime_append, if_neg (by simp [hsa]), hi],
            by rw [storeTime_append, if_pos hstore], storeTime_lt hi⟩

theorem removesAt_append_of_lt (mt0 : MessageTrackerImpl) (calls : List Call) (call : Call)
    (a : Message) {k : Nat} (hk : k < calls.length) :
    removesAt mt0 (calls ++ [call]) a k = removesAt mt0 calls a k := by
  unfold removesAt
  rw [List.getElem?_append_left hk, List.take_append_of_le_length (Nat.le_of_lt hk)]

theorem removesAt_append_length (mt0 : MessageTrackerImpl) (calls : List Call) (call : Call)
    (a : Message) :
    removesAt mt0 (calls ++ [call]) a calls.length = call.removes (run mt0 calls) a := by
  unfold removesAt
  rw [List.getElem?_concat_length, List.take_append_of_le_length (Nat.le_refl _),
    List.take_of_length_le (Nat.le_refl _)]

theorem removesAt_of_length_le (mt0 : MessageTrackerImpl) (calls : List Call) (a : Message)
    {k : Nat} (hk : calls.length ≤ k) : removesAt mt0 calls a k = false := by
  unfold removesAt
  rw [List.getElem?_eq_none hk]

theorem Survives_append (mt0 : MessageTrackerImpl) (calls : List Call) (call : Call)
    (a : Message) :
    Survives mt0 (calls ++ [call]) a ↔
      (call.stores (run mt0 calls) a.ID = true ∧ call = .Add (some a)) ∨
      (call.stores (run mt0 calls) a.ID = false ∧ call.removes (run mt0 calls) a = false ∧
        Survives mt0 calls a) := by
  unfold Survives
  rw [storeTime_append]
  by_cases hs : call.stores (run mt0 calls) a.ID = true
  · rw [if_pos hs]
    constructor
    · rintro ⟨i, hi, hget, -⟩
      cases hi
      rw [List.getElem?_concat_length] at hget
      exact Or.inl ⟨hs, Option.some.inj hget⟩
    · rintro (⟨-, rfl⟩ | ⟨hf, -, -⟩)
      · refine ⟨calls.length, rfl, List.getElem?_concat_length _ _, fun k hk => ?_⟩
        exact removesAt_of_length_le _ _ _
          (by rw [List.length_append, List.length_singleton]; omega)
      · rw [hs] at hf
        cases hf
  · have hf : call.stores (run mt0 calls) a.ID = false := by simpa using hs
    rw [if_neg hs]
    constructor
    · rintro ⟨i, hi, hget, hrem⟩
      have hlt := storeTime_lt hi
      rw [List.getElem?_append_left hlt] at hget
      refine Or.inr ⟨hf, ?_, i, hi, hget, fun k hk => ?_⟩
      · rw [← removesAt_append_length]
        exact hrem _ hlt
      · by_cases hkn : k < calls.length
        · rw [← removesAt_append_of_lt mt0 calls call a hkn]
          exact hrem k hk
        · exact removesAt_of_length_le _ _ _ (by omega)
    · rintro (⟨ht, -⟩ | ⟨-, hr, i, hi, hget, hrem⟩)
      · exact absurd ht hs
      · have hlt := storeTime_lt hi
        refine ⟨i, hi, by rw [List.getElem?_append_left hlt]; exact hget, fun k hk => ?_⟩
        rcases Nat.lt_trichotomy k calls.length with h1 | h1 | h1
        · rw [removesAt_append_of_lt mt0 calls call a h1]
          exact hrem k hk
        · subst h1
          rw [removesAt_append_length]
          exact hr
        · exact removesAt_of_length_le _ _ _
            (by rw [List.length_append, List.length_singleton]; omega)

theorem Message_state (mt : MessageTrackerImpl) (id : String) : (mt.Message id).state = mt := by
  unfold MessageTrackerImpl.Message
  cases mt.messageMap.lookup id <;> rfl

theorem mem_exec_iff {mt : MessageTrackerImpl} (h : Inv mt) (call : Call) (a : Message) :
    a ∈ (call.exec mt).messages ↔
      (call.stores mt a.ID = true ∧ call = .Add (some a)) ∨
      (call.stores mt a.ID = false ∧ call.removes mt a = false ∧ a ∈ mt.messages) := by
  cases call with
  | Add message =>
    cases message with
    | none =>
      show a ∈ mt.messages ↔ _
      simp [Call.stores, Call.removes]
    | some m =>
      show a ∈ (Add mt (some m)).state.messages ↔ _
      by_cases hm : m.ID ∈ mt.messageMap
      · rw [Add_present hm]
        show a ∈ mt.messages ↔ _
        have hst : (Call.Add (some m)).stores mt a.ID = false := by
          by_cases hid : m.ID = a.ID
          · simp [Call.stores, ← hid, hm]
          · simp [Call.stores, hid]
        have hrm : (Call.Add (some m)).removes mt a = false := by simp [Call.removes, hm]
        simp [hst, hrm]
      · have hnew : (Call.Add (some m)).stores mt m.ID = true := by simp [Call.stores, hm]
        by_cases hfull : (mt.messages.length : Int) = mt.capacity
        · obtain ⟨oldest, rest, hq⟩ := List.exists_cons_of_ne_nil (h.nonempty_of_full hfull)
          have hnd := h.nodup
          rw [hq] at hnd
          simp only [List.map_cons, List.nodup_cons] at hnd
          have hrm : (Call.Add (some m)).removes mt a = decide (oldest = a) := by
            have h1 : decide (m.ID ∉ mt.messageMap) = true := decide_eq_true hm
            have h2 : decide ((mt.messages.length : Int) = mt.capacity) = true :=
              decide_eq_true hfull
            show (decide (m.ID ∉ mt.messageMap) &&
              decide ((mt.messages.length : Int) = mt.capacity) &&
              decide (mt.messages.head? = some a)) = _
            rw [h1, h2, hq]
            simp
          rw [Add_full hm hq hfull]
          show a ∈ rest ++ [m] ↔ _
          constructor
          · intro ha
            rcases List.mem_append.1 ha with ha | ha
            · right
              have ha2 : a ∈ mt.messages := by
                rw [hq]
                exact List.mem_cons_of_mem _ ha
              have hne : oldest ≠ a := fun heq =>
                hnd.1 (List.mem_map.2 ⟨a, ha, by rw [heq]⟩)
              exact ⟨stores_false_of_mem h hm ha2, by rw [hrm]; simp [hne], ha2⟩
            · left
              rw [List.mem_singleton.1 ha]
              exact ⟨hnew, rfl⟩
          · rintro (⟨-, heq⟩ | ⟨-, hr, ha⟩)
            · injection heq with heq
              injection heq with heq
              subst heq
              simp
            · have hne : oldest ≠ a := by
                intro heq
                rw [hrm, heq] at hr
                simp at hr
              rw [hq] at ha
              rcases List.mem_cons.1 ha with heq | ha
              · exact absurd heq.symm hne
              · exact List.mem_append_left _ ha
        · have hrm : (Call.Add (some m)).removes mt a = false := by
            simp [Call.removes, hfull]
          rw [Add_room hm hfull]
          show a ∈ mt.messages ++ [m] ↔ _
          constructor
          · intro ha
            rcases List.mem_append.1 ha with ha | ha
            · exact Or.inr ⟨stores_false_of_mem h hm ha, hrm, ha⟩
            · left
              rw [List.mem_singleton.1 ha]
              exact ⟨hnew, rfl⟩
          · rintro (⟨-, heq⟩ | ⟨-, -, ha⟩)
            · injection heq with heq
              injection heq with heq
              subst heq
              simp
            · exact List.mem_append_left _ ha
  | Delete id =>
    show a ∈ (Delete mt id).state.messages ↔ _
    by_cases hid : id ∈ mt.messageMap
    · rw [Delete_present hid]
      show a ∈ mt.messages.eraseP (hasID id) ↔ _
      have hst : (Call.Delete id).stores mt a.ID = false := rfl
      have hrm : (Call.Delete id).removes mt a = decide (id = a.ID) := by
        simp [Call.removes, hid]
      rw [eraseP_hasID_eq_filter h.nodup, List.mem_filter, hst, hrm]
      constructor
      · rintro ⟨ha, hne⟩
        have hne2 : ¬ id = a.ID := fun heq => by simp [hasID, heq] at hne
        exact Or.inr ⟨rfl, decide_eq_false hne2, ha⟩
      · rintro (⟨hf, -⟩ | ⟨-, hr, ha⟩)
        · cases hf
        · have hne2 : ¬ a.ID = id := fun heq => by simp [heq] at hr
          exact ⟨ha, by simp [hasID, hne2]⟩
    · rw [Delete_absent hid]
      show a ∈ mt.messages ↔ _
      simp [Call.stores, Call.removes, hid]
  | Message id =>
    show a ∈ (mt.Message id).state.messages ↔ _
    rw [Message_state]
    simp [Call.stores, Call.removes]
  | Messages =>
    show a ∈ mt.messages ↔ _
    simp [Call.stores, Call.removes]

theorem mem_iff_survives (mt0 : MessageTrackerImpl) (hinv : Inv mt0)
    (hempty : mt0.messages = []) (calls : List Call) (a : Message) :
    a ∈ (run mt0 calls).messages ↔ Survives mt0 calls a := by
  induction calls using List.reverseRecOn with
  | nil =>
    have hrun : run mt0 [] = mt0 := rfl
    rw [hrun, hempty]
    constructor
    · intro ha
      exact absurd ha (List.not_mem_nil a)
    · rintro ⟨i, -, hget, -⟩
      simp at hget
  | append_singleton calls call ih =>
    rw [run_append_singleton, mem_exec_iff (hinv.run calls), Survives_append, ih]

theorem StoredBy.mem_queue {mt0 : MessageTrackerImpl} {calls : List Call} {a : Message}
    (h : StoredBy mt0 calls a) : a ∈ (run mt0 calls).messages := by
  obtain ⟨i, hi, -, hstay⟩ := h
  have hmem := hstay calls.length (storeTime_lt hi) (Nat.le_refl _)
  rwa [List.take_of_length_le (Nat.le_refl _)] at hmem

/-- C15: in every state reached from `NewMessageTracker(c)`, `c ≥ 1`, by a
sequence of calls, `Messages()` lists exactly the surviving messages, in the
order of the Add calls that stored them.  A message `a` is in the returned
sequence if and only if it survives the history of calls: the latest
non-duplicate Add of its ID is an `Add(a)` that no later Delete or eviction of
`a` follows (`Survives`).  The same entries are those that are in the queue
after every call later than that Add (`StoredBy`).  For any two entries `a`
before `b` in `Messages()`, the Add that stored `a` came before the Add that
stored `b`. -/
theorem C15_messages_in_add_order (c : Int) (hc : 1 ≤ c) (mt0 : MessageTrackerImpl)
    (h0 : NewMessageTracker c = some mt0) (calls : List Call) :
    ∃ ms, Messages (run mt0 calls) = .ret ms (run mt0 calls) ∧
      (∀ a, a ∈ ms ↔ Survives mt0 calls a) ∧
      (∀ a, a ∈ ms ↔ StoredBy mt0 calls a) ∧
      ms.Pairwise (storedBefore mt0 calls) := by
  have hempty : mt0.messages = [] := by
    unfold NewMessageTracker at h0
    split_ifs at h0
    cases h0
    rfl
  have hinv := Inv.new hc h0
  have horder := stored_order mt0 hinv hempty calls
  exact ⟨_, rfl, mem_iff_survives mt0 hinv hempty calls,
    fun a => ⟨horder.1 a, StoredBy.mem_queue⟩, horder.2⟩

theorem C15_messages_in_add_order_witness :
    (1 : Int) ≤ 5 ∧ NewMessageTracker 5 = some fresh5 ∧
    Messages (run fresh5 mixedCalls)
      = .ret [generateMessage 1, generateMessage 3, generateMessage 4, generateMessage 5]
          (run fresh5 mixedCalls) ∧
    (∀ a, a ∈ [generateMessage 1, generateMessage 3, generateMessage 4, generateMessage 5]
      ↔ Survives fresh5 mixedCalls a) ∧
    (∀ a, a ∈ [generateMessage 1, generateMessage 3, generateMessage 4, generateMessage 5]
      ↔ StoredBy fresh5 mixedCalls a) ∧
    [generateMessage 1, generateMessage 3, generateMessage 4, generateMessage 5].Pairwise
      (storedBefore fresh5 mixedCalls) := by
  obtain ⟨ms, hms, hsurv, hstored, hpw⟩ :=
    C15_messages_in_add_order 5 (by decide) fresh5 rfl mixedCalls
  have hq : Messages (run fresh5 mixedCalls)
      = .ret [generateMessage 1, generateMessage 3, generateMessage 4, generateMessage 5]
          (run fresh5 mixedCalls) := rfl
  have hms2 : ms
      = [generateMessage 1, generateMessage 3, generateMessage 4, generateMessage 5] := by
    rw [hq] at hms
    injection hms with h1
    exact h1.symm
  subst hms2
  exact ⟨by decide, rfl, hq, hsurv, hstored, hpw⟩

end network
